import Mathlib

/-!
# Ice-E `BasicStream`: the inlined marshalling primitives

A shallow embedding of the inline member functions of `IceInternal::BasicStream`
(`cppe/include/IceE/BasicStream.h`) and the properties of the wire format that
follow from them.

Conventions of the embedding

* `Ice::Byte` is an 8-bit unsigned value, `Fin 256`.
* `Ice::Int` is a 32-bit two's-complement integer.  Values are carried as `Int`;
  wherever the C++ stores or truncates one, the embedding reduces modulo `2^32`.
* `Container::size_type` values (lengths, offsets) are `Nat`.
* The iterator `i` is represented by the offset `i - b.begin()`.
* A member function becomes a function from the stream state to an `Outcome`:
  normal return, a thrown Ice exception (together with the state the function
  left behind when it threw), a failed `assert`, or undefined behaviour.
* The linked lists of encapsulation frames (`previous` pointers) are `List`s with
  the current frame at the head; the frame at the bottom of a list is the
  pre-allocated one.
-/

namespace Ice

/-- The type `Ice::Byte`: one octet. -/
abbrev Byte := Fin 256

end Ice

namespace IceInternal

/-- Truncation of a natural number to an octet, as `static_cast<Ice::Byte>` does. -/
def toByte (n : Nat) : Ice.Byte := ⟨n % 256, Nat.mod_lt n (by decide)⟩

/-- The unsigned 32-bit pattern of an `Ice::Int` value (two's complement). -/
def pattern32 (v : Int) : Nat := (v % 4294967296).toNat

/-- The `Ice::Int` value denoted by an unsigned 32-bit pattern. -/
def ofPattern32 (u : Nat) : Int :=
  if u % 4294967296 < 2147483648 then ((u % 4294967296 : Nat) : Int)
  else ((u % 4294967296 : Nat) : Int) - 4294967296

/-- The four bytes of an `Ice::Int` object, in increasing address order. -/
structure IntStorage where
  a0 : Ice.Byte
  a1 : Ice.Byte
  a2 : Ice.Byte
  a3 : Ice.Byte
  deriving DecidableEq, Repr

/-- The class `BasicStream::ReadEncaps` (without its `previous` link). -/
structure ReadEncaps where
  start : Nat
  sz : Int
  encodingMajor : Ice.Byte
  encodingMinor : Ice.Byte
  deriving DecidableEq, Repr

/-- The class `BasicStream::WriteEncaps` (without its `previous` link). -/
structure WriteEncaps where
  start : Nat
  writeIndex : Int
  deriving DecidableEq, Repr

/-- What the header leaves to the build and to the platform: the two
preprocessor switches it tests, the byte order in which the host stores an
`Ice::Int`, the protocol constants of `IceE/Protocol.h`, and the indeterminate
contents of storage that has been obtained but not yet assigned. -/
structure Build where
  /-- Whether `ICE_BIG_ENDIAN` is defined. -/
  ICE_BIG_ENDIAN : Bool
  /-- Whether `NDEBUG` is defined, which turns `assert` into a no-op. -/
  NDEBUG : Bool
  /-- Whether the host stores the most significant byte of an `Ice::Int` first. -/
  hostBigEndian : Bool
  /-- The constant `encodingMajor` of `IceE/Protocol.h`. -/
  encodingMajor : Ice.Byte
  /-- The constant `encodingMinor` of `IceE/Protocol.h`. -/
  encodingMinor : Ice.Byte
  /-- The byte found at an offset of the buffer that `Container::resize` has
  exposed and nothing has written yet. -/
  uninit : Nat → Ice.Byte
  /-- The members of a `ReadEncaps` obtained with `new ReadEncaps()`, none of
  which the constructor initialises. -/
  newReadEncaps : ReadEncaps
  /-- The member `start` of a `WriteEncaps` that has just been constructed, which
  the constructor does not initialise. -/
  newWriteEncapsStart : Nat

/-- The build is coherent when `ICE_BIG_ENDIAN` is defined exactly on the hosts
that store integers most significant byte first. -/
def Build.coherent (bld : Build) : Prop := bld.ICE_BIG_ENDIAN = bld.hostBigEndian

instance (bld : Build) : Decidable bld.coherent := by
  unfold Build.coherent; infer_instance

/-- The object representation of the `Ice::Int` value `v` on the host. -/
def Build.store (bld : Build) (v : Int) : IntStorage :=
  if bld.hostBigEndian then
    { a0 := toByte (pattern32 v / 16777216), a1 := toByte (pattern32 v / 65536),
      a2 := toByte (pattern32 v / 256), a3 := toByte (pattern32 v) }
  else
    { a0 := toByte (pattern32 v), a1 := toByte (pattern32 v / 256),
      a2 := toByte (pattern32 v / 65536), a3 := toByte (pattern32 v / 16777216) }

/-- The `Ice::Int` value whose object representation on the host is `m`. -/
def Build.load (bld : Build) (m : IntStorage) : Int :=
  if bld.hostBigEndian then
    ofPattern32 (m.a3.val + 256 * m.a2.val + 65536 * m.a1.val + 16777216 * m.a0.val)
  else
    ofPattern32 (m.a0.val + 256 * m.a1.val + 65536 * m.a2.val + 16777216 * m.a3.val)

/-- The exceptions raised through the four private `throw...Exception` helpers. -/
inductive Exception where
  | UnmarshalOutOfBoundsException
  | MemoryLimitException
  | NegativeSizeException
  | UnsupportedEncodingException (eMajor eMinor : Ice.Byte)
  deriving DecidableEq, Repr

/-- The state of a `BasicStream`: the inherited `Buffer` members `b` and `i`, and
the members the inline functions use.  (`_instance`, `_readSlice`, `_writeSlice`
and `_seqDataStack` are touched by none of them.) -/
structure BasicStream where
  /-- The contents of `Buffer::b`; its length is `b.size()`. -/
  b : List Ice.Byte
  /-- The read cursor `Buffer::i`, as the offset `i - b.begin()`. -/
  i : Nat
  /-- The list `_currentReadEncaps`, `previous`, ...; empty when the pointer is null. -/
  currentReadEncaps : List ReadEncaps
  /-- The list `_currentWriteEncaps`, `previous`, ...; empty when the pointer is null. -/
  currentWriteEncaps : List WriteEncaps
  /-- The member `_preAllocatedReadEncaps`, while it is not in use. -/
  preAllocatedReadEncaps : ReadEncaps
  /-- The member `_preAllocatedWriteEncaps`, while it is not in use. -/
  preAllocatedWriteEncaps : WriteEncaps
  /-- The constant member `_messageSizeMax`. -/
  messageSizeMax : Nat

/-- How a call of a member function ends. -/
inductive Outcome (α : Type) where
  /-- Normal return with a result and the new state. -/
  | ok (v : α) (s : BasicStream)
  /-- An exception left the function; `s` is the state at the `throw`. -/
  | raised (e : Exception) (s : BasicStream)
  /-- An `assert` failed (only when `NDEBUG` is not defined). -/
  | assertFailed
  /-- The call has undefined behaviour. -/
  | undefined

/-- Sequencing of two calls: the second runs only when the first returns. -/
def Outcome.andThen {α β : Type} (x : Outcome α) (f : α → BasicStream → Outcome β) :
    Outcome β :=
  match x with
  | .ok v s => f v s
  | .raised e s => .raised e s
  | .assertFailed => .assertFailed
  | .undefined => .undefined

/-- The state in which a call left the stream, when it left one. -/
def Outcome.state? {α : Type} : Outcome α → Option BasicStream
  | .ok _ s => some s
  | .raised _ s => some s
  | .assertFailed => none
  | .undefined => none

/-- Modelled from the spec: `Buffer::Container::resize` of `IceE/Buffer.h`, which
is not among the sources.  It sets the size of the byte sequence to `n`: a
shorter sequence keeps its first `n` bytes, a longer one keeps all its bytes and
exposes storage that has not been assigned.  It knows nothing of
`_messageSizeMax`, a private member of the derived class. -/
def Container.resize (bld : Build) (b : List Ice.Byte) (n : Nat) : List Ice.Byte :=
  if n ≤ b.length then b.take n
  else b ++ (List.range (n - b.length)).map (fun k => bld.uninit (b.length + k))

/-- Modelled from the spec: `Buffer::Container::push_back` of `IceE/Buffer.h`,
which is not among the sources: the byte is appended at the current end. -/
def Container.push_back (b : List Ice.Byte) (v : Ice.Byte) : List Ice.Byte := b ++ [v]

/-- Assignment of consecutive bytes through a pointer into the buffer, starting
at offset `pos`: `*dest++ = ...` repeated, or `memcpy(&b[pos], ..., sz)`. -/
def poke (b : List Ice.Byte) (pos : Nat) : List Ice.Byte → List Ice.Byte
  | [] => b
  | x :: xs => poke (b.set pos x) (pos + 1) xs

namespace BasicStream

/-- The constructor `BasicStream(Instance*, int messageSizeMax)`: an empty buffer
with the cursor at its beginning, no current frame, and the two pre-allocated
frames as their own constructors leave them. -/
def init (bld : Build) (messageSizeMax : Nat) : BasicStream :=
  { b := [], i := 0, currentReadEncaps := [], currentWriteEncaps := [],
    preAllocatedReadEncaps := bld.newReadEncaps,
    preAllocatedWriteEncaps := { start := bld.newWriteEncapsStart, writeIndex := 0 },
    messageSizeMax := messageSizeMax }

/-- The function `BasicStream::resize`. -/
def resize (bld : Build) (sz : Nat) (s : BasicStream) : Outcome Unit :=
  if sz > s.messageSizeMax then .raised .MemoryLimitException s
  else .ok () { s with b := Container.resize bld s.b sz }

/-- The function `BasicStream::write(Ice::Byte)`. -/
def write_Byte (v : Ice.Byte) (s : BasicStream) : Outcome Unit :=
  .ok () { s with b := Container.push_back s.b v }

/-- The function `BasicStream::read(Ice::Byte&)`. -/
def read_Byte (s : BasicStream) : Outcome Ice.Byte :=
  if s.i ≥ s.b.length then .raised .UnmarshalOutOfBoundsException s
  else
    match s.b.drop s.i with
    | v :: _ => .ok v { s with i := s.i + 1 }
    | [] => .undefined

/-- The function `BasicStream::write(bool)`. -/
def write_bool (v : Bool) (s : BasicStream) : Outcome Unit :=
  .ok () { s with b := Container.push_back s.b (if v then 1 else 0) }

/-- The function `BasicStream::read(bool&)`. -/
def read_bool (s : BasicStream) : Outcome Bool :=
  if s.i ≥ s.b.length then .raised .UnmarshalOutOfBoundsException s
  else
    match s.b.drop s.i with
    | v :: _ => .ok (decide (v ≠ 0)) { s with i := s.i + 1 }
    | [] => .undefined

/-- The bytes that the four assignments `*dest++ = *src..` of `write(Ice::Int)`
and of `endWriteEncaps` copy out of the object at `src`, in the order in which
they are stored at `dest`. -/
def copyOut (bld : Build) (src : IntStorage) : List Ice.Byte :=
  if bld.ICE_BIG_ENDIAN then [src.a3, src.a2, src.a1, src.a0]
  else [src.a0, src.a1, src.a2, src.a3]

/-- The object that the four assignments of `read(Ice::Int&)` build at `dest`
from the bytes `s0 s1 s2 s3` found at `src`, `src + 1`, `src + 2`, `src + 3`. -/
def copyIn (bld : Build) (s0 s1 s2 s3 : Ice.Byte) : IntStorage :=
  if bld.ICE_BIG_ENDIAN then { a0 := s3, a1 := s2, a2 := s1, a3 := s0 }
  else { a0 := s0, a1 := s1, a2 := s2, a3 := s3 }

/-- The function `BasicStream::write(Ice::Int)`. -/
def write_Int (bld : Build) (v : Int) (s : BasicStream) : Outcome Unit :=
  let pos := s.b.length
  (resize bld (pos + 4) s).andThen fun _ s1 =>
    .ok () { s1 with b := poke s1.b pos (copyOut bld (bld.store v)) }

/-- The function `BasicStream::read(Ice::Int&)`. -/
def read_Int (bld : Build) (s : BasicStream) : Outcome Int :=
  if (s.b.length : Int) - (s.i : Int) < 4 then .raised .UnmarshalOutOfBoundsException s
  else
    match s.b.drop s.i with
    | s0 :: s1 :: s2 :: s3 :: _ => .ok (bld.load (copyIn bld s0 s1 s2 s3)) { s with i := s.i + 4 }
    | _ => .undefined

/-- The function `BasicStream::writeSize`. -/
def writeSize (bld : Build) (v : Int) (s : BasicStream) : Outcome Unit :=
  if ¬ bld.NDEBUG ∧ ¬ (v ≥ 0) then .assertFailed
  else if v > 254 then
    (write_Byte 255 s).andThen fun _ s1 => write_Int bld v s1
  else
    write_Byte (toByte (pattern32 v)) s

/-- The function `BasicStream::readSize`. -/
def readSize (bld : Build) (s : BasicStream) : Outcome Int :=
  (read_Byte s).andThen fun byte s1 =>
    if byte.val = 255 then
      (read_Int bld s1).andThen fun v s2 =>
        if v < 0 then .raised .NegativeSizeException s2
        else .ok v s2
    else
      .ok (byte.val : Int) s1

/-- The conversion `static_cast<Ice::Int>` of an integral value: the value is
reduced to 32 bits, two's complement. -/
def toInt32 (x : Int) : Int := ofPattern32 (pattern32 x)

/-- The function `BasicStream::writeBlob(const Ice::Byte*, Container::size_type)`.
The list `v` is the array that the pointer argument designates. -/
def writeBlob (bld : Build) (v : List Ice.Byte) (sz : Nat) (s : BasicStream) : Outcome Unit :=
  if sz > 0 then
    let pos := s.b.length
    (resize bld (pos + sz) s).andThen fun _ s1 =>
      if sz ≤ v.length then .ok () { s1 with b := poke s1.b pos (v.take sz) }
      else .undefined
  else .ok () s

/-- The function `BasicStream::readBlob(const Ice::Byte*&, Container::size_type)`.
The pointer it hands back is represented by its offset in the buffer; a cursor
beyond the end of the buffer makes the pointer difference meaningless. -/
def readBlob (sz : Nat) (s : BasicStream) : Outcome Nat :=
  if sz > 0 then
    if s.i > s.b.length then .undefined
    else if s.b.length - s.i < sz then .raised .UnmarshalOutOfBoundsException s
    else .ok s.i { s with i := s.i + sz }
  else .ok s.i s

/-- The function `BasicStream::write(const std::string&)`; a string is the list
of its `char`s taken as octets. -/
def write_string (bld : Build) (v : List Ice.Byte) (s : BasicStream) : Outcome Unit :=
  let sz := toInt32 (v.length : Int)
  (writeSize bld sz s).andThen fun _ s1 =>
    if sz > 0 then
      let pos := s1.b.length
      (resize bld (pos + sz.toNat) s1).andThen fun _ s2 =>
        .ok () { s2 with b := poke s2.b pos (v.take sz.toNat) }
    else .ok () s1

/-- The function `BasicStream::read(std::string&)`. -/
def read_string (bld : Build) (s : BasicStream) : Outcome (List Ice.Byte) :=
  (readSize bld s).andThen fun sz s1 =>
    if sz > 0 then
      if (s1.b.length : Int) - (s1.i : Int) < sz then .raised .UnmarshalOutOfBoundsException s1
      else .ok ((s1.b.drop s1.i).take sz.toNat) { s1 with i := s1.i + sz.toNat }
    else .ok [] s1

/-- The first statements of `startWriteEncaps`, up to the assignment of `start`:
the pre-allocated frame becomes current when there is none, otherwise a frame
obtained with `new WriteEncaps()` whose `previous` is the old current frame. -/
def pushWriteEncaps (s : BasicStream) : BasicStream :=
  match s.currentWriteEncaps with
  | [] =>
    { s with currentWriteEncaps := [{ s.preAllocatedWriteEncaps with start := s.b.length }] }
  | oldEncaps :: rest =>
    { s with currentWriteEncaps :=
        { start := s.b.length, writeIndex := 0 } :: oldEncaps :: rest }

/-- The function `BasicStream::startWriteEncaps`. -/
def startWriteEncaps (bld : Build) (s : BasicStream) : Outcome Unit :=
  (write_Int bld 0 (pushWriteEncaps s)).andThen fun _ s1 =>
    (write_Byte bld.encodingMajor s1).andThen fun _ s2 =>
      write_Byte bld.encodingMinor s2

/-- The function `BasicStream::endWriteEncaps`.  Without a current frame the
`assert` fails, or a null pointer is dereferenced when `NDEBUG` is defined.  The
four assignments through `dest` are defined only while `start .. start + 3` lie
inside the buffer. -/
def endWriteEncaps (bld : Build) (s : BasicStream) : Outcome Unit :=
  match s.currentWriteEncaps with
  | [] => if bld.NDEBUG then .undefined else .assertFailed
  | cur :: previous =>
    let start := cur.start
    let sz := toInt32 ((s.b.length : Int) - (start : Int))
    if start + 4 ≤ s.b.length then
      let b1 := poke s.b start (copyOut bld (bld.store sz))
      match previous with
      | [] =>
        .ok () { s with b := b1, currentWriteEncaps := [],
                        preAllocatedWriteEncaps := { cur with writeIndex := 0 } }
      | p :: ps => .ok () { s with b := b1, currentWriteEncaps := p :: ps }
    else .undefined

/-- Assignment through `_currentReadEncaps->`: an update of the current frame. -/
def setCurrentReadEncaps (f : ReadEncaps → ReadEncaps) (s : BasicStream) : BasicStream :=
  match s.currentReadEncaps with
  | [] => s
  | cur :: previous => { s with currentReadEncaps := f cur :: previous }

/-- The first statements of `startReadEncaps`, up to the assignment of `start`:
the pre-allocated frame becomes current when there is none, otherwise a frame
obtained with `new ReadEncaps()` whose `previous` is the old current frame.  The
other members of the frame keep what they held. -/
def pushReadEncaps (bld : Build) (s : BasicStream) : BasicStream :=
  match s.currentReadEncaps with
  | [] =>
    { s with currentReadEncaps := [{ s.preAllocatedReadEncaps with start := s.i }] }
  | oldEncaps :: rest =>
    { s with currentReadEncaps := { bld.newReadEncaps with start := s.i } :: oldEncaps :: rest }

/-- The function `BasicStream::startReadEncaps`. -/
def startReadEncaps (bld : Build) (s : BasicStream) : Outcome Unit :=
  (read_Int bld (pushReadEncaps bld s)).andThen fun sz s1 =>
    if sz < 0 then .raised .NegativeSizeException s1
    else if (s1.i : Int) - 4 + sz > (s1.b.length : Int) then
      .raised .UnmarshalOutOfBoundsException s1
    else
      let s2 := setCurrentReadEncaps (fun f => { f with sz := sz }) s1
      (read_Byte s2).andThen fun eMajor s3 =>
        (read_Byte s3).andThen fun eMinor s4 =>
          if eMajor ≠ bld.encodingMajor ∨ eMinor.val > bld.encodingMinor.val then
            .raised (.UnsupportedEncodingException eMajor eMinor) s4
          else
            .ok () (setCurrentReadEncaps
              (fun f => { f with encodingMajor := eMajor, encodingMinor := eMinor }) s4)

/-- The function `BasicStream::endReadEncaps`.  Without a current frame the
`assert` fails, or a null pointer is dereferenced when `NDEBUG` is defined.  A
frame whose `start + sz` is negative would move the cursor before the beginning
of the buffer. -/
def endReadEncaps (bld : Build) (s : BasicStream) : Outcome Unit :=
  match s.currentReadEncaps with
  | [] => if bld.NDEBUG then .undefined else .assertFailed
  | cur :: previous =>
    let pos : Int := (cur.start : Int) + cur.sz
    if pos < 0 then .undefined
    else
      match previous with
      | [] =>
        .ok () { s with i := pos.toNat, currentReadEncaps := [],
                        preAllocatedReadEncaps := cur }
      | p :: ps => .ok () { s with i := pos.toNat, currentReadEncaps := p :: ps }

/-! ### The wire format in the words of the specification -/

/-- The canonical encoding of a 32-bit integer: the four bytes of its 32-bit
pattern, least significant byte first. -/
def littleEndian (v : Int) : List Ice.Byte :=
  [toByte (pattern32 v), toByte (pattern32 v / 256), toByte (pattern32 v / 65536),
   toByte (pattern32 v / 16777216)]

/-- The `Ice::Int` that four consecutive wire bytes denote when they are read
least significant byte first, as a signed 32-bit integer. -/
def littleEndianInt32 (x0 x1 x2 x3 : Ice.Byte) : Int :=
  ofPattern32 (x0.val + 256 * x1.val + 65536 * x2.val + 16777216 * x3.val)

/-- A read of width `w` that ended as `r` from the state `s` was bounds-checked
atomically: it failed with `UnmarshalOutOfBoundsException` if and only if
`cursor + w` exceeds the length; a failure left the stream as it was; a success
moved the cursor by exactly `w` and changed nothing else; and the read did one
or the other. -/
def AtomicRead {α : Type} (w : Nat) (s : BasicStream) (r : Outcome α) : Prop :=
  ((∃ s1, r = .raised .UnmarshalOutOfBoundsException s1) ↔ s.i + w > s.b.length) ∧
  (∀ e s1, r = .raised e s1 → e = .UnmarshalOutOfBoundsException ∧ s1 = s) ∧
  (∀ v s1, r = .ok v s1 → s1 = { s with i := s.i + w }) ∧
  (s.i + w > s.b.length → r = .raised .UnmarshalOutOfBoundsException s) ∧
  (s.i + w ≤ s.b.length → ∃ v, r = .ok v { s with i := s.i + w })

/-- A write that ended as `r` from the state `s` respected the maximum message
size up to `k` bytes: it either failed with `MemoryLimitException` or returned
with a buffer of at most `_messageSizeMax + k` bytes. -/
def Capped (k : Nat) (s : BasicStream) (r : Outcome Unit) : Prop :=
  (∃ s1, r = .raised .MemoryLimitException s1) ∨
  (∃ s1, r = .ok () s1 ∧ s1.b.length ≤ s.messageSizeMax + k)

/-! ### Sequences of read operations -/

/-- The result of a call, forgotten: what remains is how the call ended and the
state it left. -/
def discard {α : Type} : Outcome α → Outcome Unit
  | .ok _ s => .ok () s
  | .raised e s => .raised e s
  | .assertFailed => .assertFailed
  | .undefined => .undefined

/-- The read operations that the header defines inline. -/
inductive ReadOp where
  | byte
  | bool
  | int
  | size
  | string
  | blob (sz : Nat)
  | startEncaps
  | endEncaps
  deriving DecidableEq, Repr

/-- Whether the operation opens or closes a read encapsulation. -/
def ReadOp.framing : ReadOp → Bool
  | .startEncaps => true
  | .endEncaps => true
  | _ => false

/-- The call of the member function that a `ReadOp` names. -/
def ReadOp.call (bld : Build) : ReadOp → BasicStream → Outcome Unit
  | .byte, s => discard (read_Byte s)
  | .bool, s => discard (read_bool s)
  | .int, s => discard (read_Int bld s)
  | .size, s => discard (readSize bld s)
  | .string, s => discard (read_string bld s)
  | .blob sz, s => discard (readBlob sz s)
  | .startEncaps, s => startReadEncaps bld s
  | .endEncaps, s => endReadEncaps bld s

/-- The calls of `ops` one after the other, as a C++ caller makes them: an
exception ends the sequence, and the state is the one at the `throw`. -/
def runAll (bld : Build) : List ReadOp → BasicStream → Outcome Unit
  | [], s => .ok () s
  | op :: ops, s => (op.call bld s).andThen fun _ s1 => runAll bld ops s1

/-- The call that ended as `r` from the state `s` left a state, which differs
from `s` in the cursor only, and the cursor has moved forward and is within the
buffer. -/
def Advances {α : Type} (s : BasicStream) (r : Outcome α) : Prop :=
  ∃ k, r.state? = some { s with i := s.i + k } ∧ s.i + k ≤ s.b.length

/-- The calls of `ops` one after the other when the caller carries on after an
exception, from the state the throwing call left.  There is no state to carry on
from after a failed `assert` or undefined behaviour. -/
def runKeep (bld : Build) : List ReadOp → BasicStream → Option BasicStream
  | [], s => some s
  | op :: ops, s =>
    match (op.call bld s).state? with
    | some s1 => runKeep bld ops s1
    | none => none

/-- Book-keeping beside the read frames: for every open frame, current frame
first, whether the `startReadEncaps` that pushed it returned (`true`) or threw
(`false`). -/
def trackFrames (op : ReadOp) (r : Outcome Unit) (opened : List Bool) : List Bool :=
  match op with
  | .startEncaps =>
    match r with
    | .ok _ _ => true :: opened
    | .raised _ _ => false :: opened
    | _ => opened
  | .endEncaps =>
    match r with
    | .ok _ _ => opened.tail
    | _ => opened
  | _ => opened

/-- Where a sequence of read operations got to. -/
inductive Tracked where
  /-- All operations were applied; the state and the book-keeping at the end. -/
  | reached (s : BasicStream) (opened : List Bool)
  /-- An `endReadEncaps` came up while the current frame was not one that a
  successful `startReadEncaps` had opened. -/
  | refused
  /-- An operation failed an `assert` or had undefined behaviour. -/
  | stuck

/-- The calls of `ops` one after the other, carrying on after exceptions as
`runKeep` does, with `endReadEncaps` applied only while the current frame is one
that a successful `startReadEncaps` opened. -/
def runTracked (bld : Build) : List ReadOp → BasicStream → List Bool → Tracked
  | [], s, opened => .reached s opened
  | op :: ops, s, opened =>
    if op = .endEncaps ∧ opened.head? ≠ some true then .refused
    else
      match (op.call bld s).state? with
      | some s1 => runTracked bld ops s1 (trackFrames op (op.call bld s) opened)
      | none => .stuck

/-- The cursor is within the buffer, and so is the end `start + sz` of every
open read frame that a successful `startReadEncaps` opened. -/
def FramesWithin (s : BasicStream) (opened : List Bool) : Prop :=
  s.i ≤ s.b.length ∧
  List.Forall₂
    (fun (fr : ReadEncaps) (ok : Bool) =>
      ok = true → 0 ≤ fr.sz ∧ (fr.start : Int) + fr.sz ≤ (s.b.length : Int))
    s.currentReadEncaps opened

/-- Writing nested encapsulations that carry the payloads `ps`, outermost first:
`startWriteEncaps`, the payload with `writeBlob`, the encapsulations nested
inside, `endWriteEncaps`. -/
def writeNested (bld : Build) : List (List Ice.Byte) → BasicStream → Outcome Unit
  | [], s => .ok () s
  | p :: ps, s =>
    (startWriteEncaps bld s).andThen fun _ s1 =>
      (writeBlob bld p p.length s1).andThen fun _ s2 =>
        (writeNested bld ps s2).andThen fun _ s3 =>
          endWriteEncaps bld s3

/-- The version that the current read frame records, if there is one. -/
def currentReadVersion (s : BasicStream) : Option (Ice.Byte × Ice.Byte) :=
  s.currentReadEncaps.head?.map fun f => (f.encodingMajor, f.encodingMinor)

/-- The `sz` bytes of the buffer that a pointer handed back by `readBlob`
designates. -/
def blobAt (s : BasicStream) (v : Nat) (sz : Nat) : List Ice.Byte := (s.b.drop v).take sz

/-- Reading nested encapsulations whose payloads have the lengths `ns`,
outermost first: `startReadEncaps`, the payload with `readBlob`, the
encapsulations nested inside, `endReadEncaps`.  The result lists, outermost
first, the payload bytes read at each level and the version recorded by the
frame of that level. -/
def readNested (bld : Build) :
    List Nat → BasicStream → Outcome (List (List Ice.Byte × Option (Ice.Byte × Ice.Byte)))
  | [], s => .ok [] s
  | n :: ns, s =>
    (startReadEncaps bld s).andThen fun _ s1 =>
      (readBlob n s1).andThen fun v s2 =>
        (readNested bld ns s2).andThen fun inner s3 =>
          (endReadEncaps bld s3).andThen fun _ s4 =>
            .ok ((blobAt s1 v n, currentReadVersion s1) :: inner) s4

/-- The number of bytes that nested encapsulations with the payloads `ps` take:
a six-byte header and the payload at every level. -/
def encodedSize (ps : List (List Ice.Byte)) : Nat :=
  (ps.map fun p => 6 + p.length).sum

/-- The wire form of nested encapsulations with the payloads `ps`, outermost
first, in the words of the specification: the length of the encapsulation,
header included, as four bytes least significant first; the two version bytes;
the payload; the encapsulations nested inside. -/
def nestedEncaps (bld : Build) : List (List Ice.Byte) → List Ice.Byte
  | [] => []
  | p :: ps =>
    littleEndian ((6 + p.length + encodedSize ps : Nat) : Int)
      ++ [bld.encodingMajor, bld.encodingMinor] ++ p ++ nestedEncaps bld ps

/-! ### Sample builds and streams -/

/-- A build for a little-endian host, with the encoding version 1.0 of the Ice
protocol; indeterminate storage reads as `0xCD`. -/
def littleEndianBuild : Build :=
  { ICE_BIG_ENDIAN := false, NDEBUG := false, hostBigEndian := false,
    encodingMajor := 1, encodingMinor := 0, uninit := fun _ => 205,
    newReadEncaps := { start := 7, sz := -3, encodingMajor := 9, encodingMinor := 9 },
    newWriteEncapsStart := 7 }

/-- A build for a big-endian host, with `ICE_BIG_ENDIAN` and `NDEBUG` defined. -/
def bigEndianBuild : Build :=
  { ICE_BIG_ENDIAN := true, NDEBUG := true, hostBigEndian := true,
    encodingMajor := 1, encodingMinor := 0, uninit := fun k => toByte k,
    newReadEncaps := { start := 0, sz := 0, encodingMajor := 0, encodingMinor := 0 },
    newWriteEncapsStart := 0 }

/-- A stream holding the bytes `bytes`, with the cursor at offset `i` and no
encapsulation open. -/
def holding (bld : Build) (messageSizeMax : Nat) (bytes : List Ice.Byte) (i : Nat) :
    BasicStream :=
  { init bld messageSizeMax with b := bytes, i := i }

end BasicStream

end IceInternal

/-! ## Auxiliary facts about the buffer and about 32-bit patterns -/

namespace IceInternal

theorem poke_length (d b : List Ice.Byte) (pos : Nat) : (poke b pos d).length = b.length := by
  induction d generalizing b pos with
  | nil => rfl
  | cons x xs ih => simp [poke, ih]

theorem poke_middle (d old B rest : List Ice.Byte) (h : old.length = d.length) :
    poke (B ++ old ++ rest) B.length d = B ++ d ++ rest := by
  induction d generalizing B old with
  | nil =>
    cases old with
    | nil => simp [poke]
    | cons o os => simp at h
  | cons x xs ih =>
    cases old with
    | nil => simp at h
    | cons o os =>
      have hlen : os.length = xs.length := by simpa using h
      have hset : (B ++ o :: os ++ rest).set B.length x = (B ++ [x]) ++ os ++ rest := by
        simp [List.set_append]
      have hpos : B.length + 1 = (B ++ [x]).length := by simp
      rw [poke, hset, hpos, ih os (B ++ [x]) hlen]
      simp

theorem poke_end (d old B : List Ice.Byte) (h : old.length = d.length) :
    poke (B ++ old) B.length d = B ++ d := by
  have := poke_middle d old B [] h
  simpa using this

theorem Container.resize_grow (bld : Build) (b : List Ice.Byte) (n : Nat) :
    ∃ junk : List Ice.Byte, junk.length = n ∧ Container.resize bld b (b.length + n) = b ++ junk := by
  by_cases hn : n = 0
  · subst hn
    exact ⟨[], rfl, by simp [Container.resize]⟩
  · refine ⟨(List.range n).map (fun k => bld.uninit (b.length + k)), by simp, ?_⟩
    have : ¬ (b.length + n ≤ b.length) := by omega
    simp [Container.resize, this]

theorem Container.resize_length (bld : Build) (b : List Ice.Byte) (n : Nat) :
    (Container.resize bld b n).length = n := by
  unfold Container.resize
  split
  · simp; omega
  · simp; omega

theorem pattern32_lt (v : Int) : pattern32 v < 4294967296 := by
  unfold pattern32; omega

theorem ofPattern32_pattern32 (v : Int) (hlo : -2147483648 ≤ v) (hhi : v ≤ 2147483647) :
    ofPattern32 (pattern32 v) = v := by
  unfold ofPattern32 pattern32
  split <;> omega

theorem pattern32_ofPattern32 (u : Nat) (h : u < 4294967296) : pattern32 (ofPattern32 u) = u := by
  unfold ofPattern32 pattern32
  split <;> omega

theorem ofPattern32_range (u : Nat) :
    -2147483648 ≤ ofPattern32 u ∧ ofPattern32 u ≤ 2147483647 := by
  unfold ofPattern32
  split <;> omega

theorem bytes_recombine (u : Nat) (h : u < 4294967296) :
    (toByte u).val + 256 * (toByte (u / 256)).val + 65536 * (toByte (u / 65536)).val
      + 16777216 * (toByte (u / 16777216)).val = u := by
  simp only [toByte]
  omega

theorem Build.load_store (bld : Build) (v : Int) (hlo : -2147483648 ≤ v) (hhi : v ≤ 2147483647) :
    bld.load (bld.store v) = v := by
  have h := bytes_recombine (pattern32 v) (pattern32_lt v)
  unfold Build.load Build.store
  cases bld.hostBigEndian <;> simp only [Bool.false_eq_true, if_false, if_true] <;>
    rw [h] <;> exact ofPattern32_pattern32 v hlo hhi

namespace BasicStream

theorem copyIn_copyOut (bld : Build) (m : IntStorage) :
    ∀ s0 s1 s2 s3, copyOut bld m = [s0, s1, s2, s3] → copyIn bld s0 s1 s2 s3 = m := by
  intro s0 s1 s2 s3 h
  unfold copyOut at h
  unfold copyIn
  cases hb : bld.ICE_BIG_ENDIAN <;> simp [hb] at h ⊢ <;>
    obtain ⟨h0, h1, h2, h3⟩ := h <;> subst h0 h1 h2 h3 <;> rfl

theorem copyOut_length (bld : Build) (m : IntStorage) : (copyOut bld m).length = 4 := by
  unfold copyOut; split <;> rfl

theorem copyOut_store_of_coherent (bld : Build) (h : bld.coherent) (v : Int) :
    copyOut bld (bld.store v) = littleEndian v := by
  unfold Build.coherent at h
  unfold copyOut Build.store littleEndian
  cases hb : bld.hostBigEndian <;> simp [h, hb]

theorem write_Byte_eq (v : Ice.Byte) (s : BasicStream) :
    write_Byte v s = .ok () { s with b := s.b ++ [v] } := rfl

theorem write_Int_eq (bld : Build) (v : Int) (s : BasicStream) :
    write_Int bld v s =
      if s.b.length + 4 > s.messageSizeMax then .raised .MemoryLimitException s
      else .ok () { s with b := s.b ++ copyOut bld (bld.store v) } := by
  unfold write_Int resize
  by_cases h : s.b.length + 4 > s.messageSizeMax
  · simp [h, Outcome.andThen]
  · obtain ⟨junk, hj, hr⟩ := Container.resize_grow bld s.b 4
    simp only [h, if_false, Outcome.andThen, hr]
    rw [poke_end _ junk s.b (by rw [hj, copyOut_length])]

theorem drop_cons_lt {l : List Ice.Byte} {i : Nat} {x : Ice.Byte} {rest : List Ice.Byte}
    (h : l.drop i = x :: rest) : i + (rest.length + 1) = l.length := by
  have hl : (l.drop i).length = rest.length + 1 := by rw [h]; rfl
  rw [List.length_drop] at hl
  omega

theorem drop_succ_of_drop {l : List Ice.Byte} {i : Nat} {x : Ice.Byte} {rest : List Ice.Byte}
    (h : l.drop i = x :: rest) : l.drop (i + 1) = rest := by
  have : l.drop (i + 1) = (l.drop i).drop 1 := by rw [List.drop_drop]
  rw [this, h]; rfl

theorem read_Byte_drop (s : BasicStream) (x : Ice.Byte) (rest : List Ice.Byte)
    (h : s.b.drop s.i = x :: rest) :
    read_Byte s = .ok x { s with i := s.i + 1 } := by
  unfold read_Byte
  have h1 : ¬ (s.i ≥ s.b.length) := by have := drop_cons_lt h; omega
  rw [if_neg h1, h]

theorem read_bool_drop (s : BasicStream) (x : Ice.Byte) (rest : List Ice.Byte)
    (h : s.b.drop s.i = x :: rest) :
    read_bool s = .ok (decide (x ≠ 0)) { s with i := s.i + 1 } := by
  unfold read_bool
  have h1 : ¬ (s.i ≥ s.b.length) := by have := drop_cons_lt h; omega
  rw [if_neg h1, h]

theorem read_Int_drop (bld : Build) (s : BasicStream) (x0 x1 x2 x3 : Ice.Byte)
    (rest : List Ice.Byte) (h : s.b.drop s.i = x0 :: x1 :: x2 :: x3 :: rest) :
    read_Int bld s = .ok (bld.load (copyIn bld x0 x1 x2 x3)) { s with i := s.i + 4 } := by
  unfold read_Int
  have h1 : ¬ ((s.b.length : Int) - (s.i : Int) < 4) := by
    have := drop_cons_lt h
    simp only [List.length_cons] at this
    omega
  rw [if_neg h1, h]

theorem drop_length_append (B l : List Ice.Byte) : (B ++ l).drop B.length = l := by
  simp

theorem load_copyIn_of_coherent (bld : Build) (h : bld.coherent) (x0 x1 x2 x3 : Ice.Byte) :
    bld.load (copyIn bld x0 x1 x2 x3) = littleEndianInt32 x0 x1 x2 x3 := by
  unfold Build.coherent at h
  unfold Build.load copyIn littleEndianInt32
  cases hb : bld.hostBigEndian <;> simp [h, hb]

theorem load_copyIn_copyOut_store (bld : Build) (v : Int) (hlo : -2147483648 ≤ v)
    (hhi : v ≤ 2147483647) (x0 x1 x2 x3 : Ice.Byte)
    (h : copyOut bld (bld.store v) = [x0, x1, x2, x3]) :
    bld.load (copyIn bld x0 x1 x2 x3) = v := by
  rw [copyIn_copyOut bld _ x0 x1 x2 x3 h, Build.load_store bld v hlo hhi]

theorem copyOut_cases (bld : Build) (m : IntStorage) :
    ∃ x0 x1 x2 x3, copyOut bld m = [x0, x1, x2, x3] := by
  unfold copyOut; split <;> exact ⟨_, _, _, _, rfl⟩

end BasicStream

end IceInternal

/-! ## What the write functions append -/

namespace IceInternal.BasicStream

theorem writeSize_small (bld : Build) (s : BasicStream) (v : Int) (h0 : 0 ≤ v) (h1 : v ≤ 254) :
    writeSize bld v s = .ok () { s with b := s.b ++ [toByte (pattern32 v)] } := by
  have hassert : ¬ (¬ bld.NDEBUG = true ∧ ¬ (v ≥ 0)) := fun h => h.2 h0
  have hgt : ¬ (v > 254) := by omega
  unfold writeSize
  rw [if_neg hassert, if_neg hgt]
  rfl

theorem writeSize_large (bld : Build) (s : BasicStream) (v : Int) (h0 : 254 < v) :
    writeSize bld v s =
      if s.b.length + 5 > s.messageSizeMax then
        .raised .MemoryLimitException { s with b := s.b ++ [255] }
      else .ok () { s with b := s.b ++ 255 :: copyOut bld (bld.store v) } := by
  have hassert : ¬ (¬ bld.NDEBUG = true ∧ ¬ (v ≥ 0)) := fun h => h.2 (by omega)
  unfold writeSize
  rw [if_neg hassert, if_pos h0, write_Byte_eq]
  simp only [Outcome.andThen]
  rw [write_Int_eq]
  by_cases hroom : s.b.length + 5 > s.messageSizeMax
  · have : (s.b ++ [255]).length + 4 > s.messageSizeMax := by simp; omega
    rw [if_pos this, if_pos hroom]
  · have : ¬ ((s.b ++ [255]).length + 4 > s.messageSizeMax) := by simp; omega
    rw [if_neg this, if_neg hroom]
    simp

theorem atomicRead_of_cases {α : Type} (w : Nat) (s : BasicStream) (r : Outcome α)
    (hfail : s.i + w > s.b.length → r = .raised .UnmarshalOutOfBoundsException s)
    (hok : s.i + w ≤ s.b.length → ∃ v, r = .ok v { s with i := s.i + w }) :
    AtomicRead w s r := by
  refine ⟨⟨?_, fun h => ⟨s, hfail h⟩⟩, ?_, ?_, hfail, hok⟩
  · rintro ⟨s1, h⟩
    by_contra hle
    obtain ⟨v, hv⟩ := hok (by omega)
    rw [hv] at h
    cases h
  · intro e s1 h
    by_cases hgt : s.i + w > s.b.length
    · rw [hfail hgt] at h
      injection h with he hs
      exact ⟨he.symm, hs.symm⟩
    · obtain ⟨v, hv⟩ := hok (by omega)
      rw [hv] at h
      cases h
  · intro v s1 h
    by_cases hgt : s.i + w > s.b.length
    · rw [hfail hgt] at h
      cases h
    · obtain ⟨v1, hv⟩ := hok (by omega)
      rw [hv] at h
      injection h with _ hs
      exact hs.symm

theorem exists_cons_of_length_pos (l : List Ice.Byte) (h : 1 ≤ l.length) :
    ∃ x rest, l = x :: rest := by
  cases l with
  | nil => simp at h
  | cons x rest => exact ⟨x, rest, rfl⟩

theorem exists_four_of_length (l : List Ice.Byte) (h : 4 ≤ l.length) :
    ∃ x0 x1 x2 x3 rest, l = x0 :: x1 :: x2 :: x3 :: rest := by
  match l, h with
  | x0 :: x1 :: x2 :: x3 :: rest, _ => exact ⟨x0, x1, x2, x3, rest, rfl⟩

theorem pushWriteEncaps_b (s : BasicStream) : (pushWriteEncaps s).b = s.b := by
  unfold pushWriteEncaps; split <;> rfl

theorem pushWriteEncaps_max (s : BasicStream) :
    (pushWriteEncaps s).messageSizeMax = s.messageSizeMax := by
  unfold pushWriteEncaps; split <;> rfl

theorem pushWriteEncaps_i (s : BasicStream) : (pushWriteEncaps s).i = s.i := by
  unfold pushWriteEncaps; split <;> rfl

theorem pushWriteEncaps_frames (s : BasicStream) :
    ∃ cur, (pushWriteEncaps s).currentWriteEncaps = cur :: s.currentWriteEncaps ∧
      cur.start = s.b.length := by
  unfold pushWriteEncaps
  split
  · next h =>
    refine ⟨{ s.preAllocatedWriteEncaps with start := s.b.length }, ?_, rfl⟩
    rw [h]
  · next o r h =>
    refine ⟨{ start := s.b.length, writeIndex := 0 }, ?_, rfl⟩
    rw [h]

theorem startWriteEncaps_eq (bld : Build) (s : BasicStream) :
    startWriteEncaps bld s =
      if s.b.length + 4 > s.messageSizeMax then
        .raised .MemoryLimitException (pushWriteEncaps s)
      else
        .ok () { pushWriteEncaps s with
          b := s.b ++ copyOut bld (bld.store 0) ++ [bld.encodingMajor] ++ [bld.encodingMinor] } := by
  unfold startWriteEncaps
  rw [write_Int_eq]
  by_cases h : s.b.length + 4 > s.messageSizeMax
  · have h1 : (pushWriteEncaps s).b.length + 4 > (pushWriteEncaps s).messageSizeMax := by
      rw [pushWriteEncaps_b, pushWriteEncaps_max]; exact h
    rw [if_pos h, if_pos h1]; rfl
  · have h1 : ¬ ((pushWriteEncaps s).b.length + 4 > (pushWriteEncaps s).messageSizeMax) := by
      rw [pushWriteEncaps_b, pushWriteEncaps_max]; exact h
    rw [if_neg h, if_neg h1]
    simp only [Outcome.andThen, write_Byte, Container.push_back, pushWriteEncaps_b]

theorem writeBlob_eq (bld : Build) (p : List Ice.Byte) (s : BasicStream) :
    writeBlob bld p p.length s =
      if p.length > 0 ∧ s.b.length + p.length > s.messageSizeMax then
        .raised .MemoryLimitException s
      else .ok () { s with b := s.b ++ p } := by
  unfold writeBlob resize
  by_cases hp : p.length > 0
  · by_cases hroom : s.b.length + p.length > s.messageSizeMax
    · simp only [if_pos hp, if_pos hroom, if_pos (And.intro hp hroom), Outcome.andThen]
    · obtain ⟨junk, hj, hr⟩ := Container.resize_grow bld s.b p.length
      simp only [if_pos hp, if_neg hroom, if_neg (fun h : _ ∧ _ => hroom h.2), Outcome.andThen,
        hr, Nat.le_refl, if_true, List.take_length, poke_end p junk s.b hj]
  · have hnil : p = [] := by
      cases p with
      | nil => rfl
      | cons x xs => simp at hp
    subst hnil
    simp

theorem toInt32_of_range (x : Int) (hlo : -2147483648 ≤ x) (hhi : x ≤ 2147483647) :
    toInt32 x = x := ofPattern32_pattern32 x hlo hhi

theorem endWriteEncaps_patch (bld : Build) (s : BasicStream) (cur : WriteEncaps)
    (previous : List WriteEncaps) (B old rest : List Ice.Byte)
    (hframes : s.currentWriteEncaps = cur :: previous) (hstart : cur.start = B.length)
    (hb : s.b = B ++ old ++ rest) (hold : old.length = 4) :
    ∃ s1, endWriteEncaps bld s = .ok () s1 ∧
      s1.b = B ++ copyOut bld (bld.store (toInt32 (4 + (rest.length : Int)))) ++ rest ∧
      s1.currentWriteEncaps = previous ∧ s1.i = s.i ∧
      s1.currentReadEncaps = s.currentReadEncaps ∧ s1.messageSizeMax = s.messageSizeMax := by
  have hlen : cur.start + 4 ≤ s.b.length := by rw [hb, hstart]; simp; omega
  have hsz : (s.b.length : Int) - (cur.start : Int) = 4 + (rest.length : Int) := by
    rw [hb, hstart]; simp; omega
  have hpoke : poke s.b cur.start (copyOut bld (bld.store (toInt32 (4 + (rest.length : Int)))))
      = B ++ copyOut bld (bld.store (toInt32 (4 + (rest.length : Int)))) ++ rest := by
    rw [hb, hstart]
    exact poke_middle _ old B rest (by rw [hold, copyOut_length])
  unfold endWriteEncaps
  rw [hframes]
  simp only [hsz, if_pos hlen, hpoke]
  cases previous with
  | nil => exact ⟨_, rfl, rfl, rfl, rfl, rfl, rfl⟩
  | cons q qs => exact ⟨_, rfl, rfl, rfl, rfl, rfl, rfl⟩

theorem pushReadEncaps_eq (bld : Build) (s : BasicStream) :
    ∃ fr : ReadEncaps, fr.start = s.i ∧
      pushReadEncaps bld s = { s with currentReadEncaps := fr :: s.currentReadEncaps } := by
  unfold pushReadEncaps
  split
  · next h =>
    refine ⟨{ s.preAllocatedReadEncaps with start := s.i }, rfl, ?_⟩
    rw [h]
  · next o r h =>
    refine ⟨{ bld.newReadEncaps with start := s.i }, rfl, ?_⟩
    rw [h]

theorem startReadEncaps_eq (bld : Build) (hc : bld.coherent) (s : BasicStream)
    (x0 x1 x2 x3 major minor : Ice.Byte) (rest : List Ice.Byte)
    (hdrop : s.b.drop s.i = x0 :: x1 :: x2 :: x3 :: major :: minor :: rest) :
    ∃ fr : ReadEncaps, fr.start = s.i ∧
      startReadEncaps bld s =
        if littleEndianInt32 x0 x1 x2 x3 < 0 then
          .raised .NegativeSizeException
            { s with currentReadEncaps := fr :: s.currentReadEncaps, i := s.i + 4 }
        else if (s.i : Int) + littleEndianInt32 x0 x1 x2 x3 > (s.b.length : Int) then
          .raised .UnmarshalOutOfBoundsException
            { s with currentReadEncaps := fr :: s.currentReadEncaps, i := s.i + 4 }
        else if major ≠ bld.encodingMajor ∨ minor.val > bld.encodingMinor.val then
          .raised (.UnsupportedEncodingException major minor)
            { s with
              currentReadEncaps :=
                { fr with sz := littleEndianInt32 x0 x1 x2 x3 } :: s.currentReadEncaps,
              i := s.i + 4 + 1 + 1 }
        else
          .ok ()
            { s with
              currentReadEncaps :=
                { start := fr.start, sz := littleEndianInt32 x0 x1 x2 x3,
                  encodingMajor := major, encodingMinor := minor } :: s.currentReadEncaps,
              i := s.i + 4 + 1 + 1 } := by
  obtain ⟨fr, hfr, hpush⟩ := pushReadEncaps_eq bld s
  refine ⟨fr, hfr, ?_⟩
  have h1 := drop_succ_of_drop hdrop
  have h2 := drop_succ_of_drop h1
  have h3 := drop_succ_of_drop h2
  have h4 : s.b.drop (s.i + 4) = major :: minor :: rest := drop_succ_of_drop h3
  have h5 : s.b.drop (s.i + 4 + 1) = minor :: rest := drop_succ_of_drop h4
  unfold startReadEncaps
  rw [hpush, read_Int_drop bld { s with currentReadEncaps := fr :: s.currentReadEncaps }
    x0 x1 x2 x3 (major :: minor :: rest) hdrop]
  simp only [Outcome.andThen, load_copyIn_of_coherent bld hc]
  by_cases hneg : littleEndianInt32 x0 x1 x2 x3 < 0
  · rw [if_pos hneg, if_pos hneg]
  · rw [if_neg hneg, if_neg hneg]
    by_cases hoob : (s.i : Int) + littleEndianInt32 x0 x1 x2 x3 > (s.b.length : Int)
    · have hoob1 : ((s.i + 4 : Nat) : Int) - 4 + littleEndianInt32 x0 x1 x2 x3
          > (s.b.length : Int) := by push_cast; omega
      rw [if_pos hoob, if_pos hoob1]
    · have hoob1 : ¬ (((s.i + 4 : Nat) : Int) - 4 + littleEndianInt32 x0 x1 x2 x3
          > (s.b.length : Int)) := by push_cast; omega
      rw [if_neg hoob, if_neg hoob1]
      simp only [setCurrentReadEncaps]
      rw [read_Byte_drop
        { s with
          currentReadEncaps :=
            { fr with sz := littleEndianInt32 x0 x1 x2 x3 } :: s.currentReadEncaps,
          i := s.i + 4 } major (minor :: rest) h4]
      simp only []
      rw [read_Byte_drop
        { s with
          currentReadEncaps :=
            { fr with sz := littleEndianInt32 x0 x1 x2 x3 } :: s.currentReadEncaps,
          i := s.i + 4 + 1 } minor rest h5]

theorem copyOut_store_zero (bld : Build) : copyOut bld (bld.store 0) = [0, 0, 0, 0] := by
  unfold copyOut Build.store
  cases bld.ICE_BIG_ENDIAN <;> cases bld.hostBigEndian <;> rfl

theorem write_string_eq (bld : Build) (v : List Ice.Byte) (s : BasicStream)
    (hlen : v.length ≤ 2147483647) :
    write_string bld v s =
      (writeSize bld (v.length : Int) s).andThen fun _ s1 =>
        if v.length = 0 then .ok () s1
        else if s1.b.length + v.length > s1.messageSizeMax then
          .raised .MemoryLimitException s1
        else .ok () { s1 with b := s1.b ++ v } := by
  have hsz : toInt32 (v.length : Int) = (v.length : Int) :=
    toInt32_of_range _ (by omega) (by omega)
  unfold write_string
  simp only [hsz]
  congr 1
  funext _ s1
  by_cases hv : v.length = 0
  · rw [if_pos hv, if_neg (by omega)]
  · rw [if_neg hv, if_pos (by omega)]
    have hnat : ((v.length : Int)).toNat = v.length := by omega
    simp only [hnat, List.take_length]
    unfold resize
    by_cases hroom : s1.b.length + v.length > s1.messageSizeMax
    · rw [if_pos hroom, if_pos hroom]; rfl
    · rw [if_neg hroom, if_neg hroom]
      obtain ⟨junk, hj, hr⟩ := Container.resize_grow bld s1.b v.length
      simp only [Outcome.andThen, hr, poke_end v junk s1.b hj]

theorem toByte_pattern32_val (v : Int) (h0 : 0 ≤ v) (h1 : v ≤ 255) :
    ((toByte (pattern32 v)).val : Int) = v := by
  simp only [toByte, pattern32]; omega

end IceInternal.BasicStream

/-! ## Properties of the size encoding -/

namespace IceInternal.BasicStream

/-- C1. Size round trip: for a size `v` with `0 ≤ v ≤ 2^31 - 1` and a stream whose
buffer can take the encoding within the maximum message size, `writeSize v`
returns, and `readSize` started at the offset where `writeSize` began to append
returns exactly `v`, with the cursor at the end of the buffer, which is 1 byte
further when `v ≤ 254` and 5 bytes further otherwise. -/
theorem writeSize_readSize_roundtrip (bld : Build) (s : BasicStream) (v : Int)
    (h0 : 0 ≤ v) (h1 : v ≤ 2147483647)
    (hroom : s.b.length + (if v ≤ 254 then 1 else 5) ≤ s.messageSizeMax) :
    ∃ s1 s2 appended,
      writeSize bld v s = .ok () s1 ∧ s1.b = s.b ++ appended ∧
      readSize bld { s1 with i := s.b.length } = .ok v s2 ∧
      s2.i = s1.b.length ∧
      s2.i = s.b.length + (if v ≤ 254 then 1 else 5) ∧
      s2.b = s1.b := by
  have hassert : ¬ (¬ bld.NDEBUG = true ∧ ¬ (v ≥ 0)) := by
    intro h; exact h.2 h0
  by_cases hv : v ≤ 254
  · have hgt : ¬ (v > 254) := by omega
    have hw : writeSize bld v s = .ok () { s with b := s.b ++ [toByte (pattern32 v)] } := by
      unfold writeSize
      rw [if_neg hassert, if_neg hgt]
      rfl
    have hval : ((toByte (pattern32 v)).val : Int) = v := by
      simp only [toByte, pattern32]; omega
    have hne : ¬ ((toByte (pattern32 v)).val = 255) := by
      intro h; rw [h] at hval; omega
    have hr : readSize bld { s with b := s.b ++ [toByte (pattern32 v)], i := s.b.length } =
        .ok v { s with b := s.b ++ [toByte (pattern32 v)], i := s.b.length + 1 } := by
      unfold readSize
      rw [read_Byte_drop _ (toByte (pattern32 v)) [] (by simp)]
      simp only [Outcome.andThen]
      rw [if_neg hne, hval]
    exact ⟨_, _, [toByte (pattern32 v)], hw, rfl, hr, by simp, by simp [hv], rfl⟩
  · have hgt : v > 254 := by omega
    simp only [hv, if_false] at hroom
    obtain ⟨x0, x1, x2, x3, hx⟩ := copyOut_cases bld (bld.store v)
    have hw : writeSize bld v s =
        .ok () { s with b := s.b ++ [255] ++ [x0, x1, x2, x3] } := by
      unfold writeSize
      rw [if_neg hassert, if_pos hgt, write_Byte_eq]
      simp only [Outcome.andThen]
      rw [write_Int_eq]
      have : ¬ ((s.b ++ [255]).length + 4 > s.messageSizeMax) := by
        simp; omega
      rw [if_neg this, hx]
    have hload := load_copyIn_copyOut_store bld v (by omega) h1 x0 x1 x2 x3 hx
    have hr : readSize bld { s with b := s.b ++ [255] ++ [x0, x1, x2, x3], i := s.b.length } =
        .ok v { s with b := s.b ++ [255] ++ [x0, x1, x2, x3], i := s.b.length + 1 + 4 } := by
      unfold readSize
      rw [read_Byte_drop _ 255 [x0, x1, x2, x3] (by simp)]
      simp only [Outcome.andThen]
      rw [if_pos (by rfl)]
      rw [read_Int_drop bld _ x0 x1 x2 x3 [] (by simp)]
      simp only [hload]
      rw [if_neg (by omega)]
    exact ⟨_, _, [255, x0, x1, x2, x3], hw, by simp, hr, by simp, by simp [hv], rfl⟩

/-- Witness for C1 at `v = 100000` on an empty stream with room for 16 bytes. -/
theorem writeSize_readSize_roundtrip_witness :
    ∃ s1 s2 appended,
      writeSize littleEndianBuild 100000 (init littleEndianBuild 16) = .ok () s1 ∧
      s1.b = (init littleEndianBuild 16).b ++ appended ∧
      readSize littleEndianBuild { s1 with i := (init littleEndianBuild 16).b.length }
        = .ok 100000 s2 ∧
      s2.i = s1.b.length ∧
      s2.i = (init littleEndianBuild 16).b.length + (if (100000 : Int) ≤ 254 then 1 else 5) ∧
      s2.b = s1.b :=
  writeSize_readSize_roundtrip littleEndianBuild (init littleEndianBuild 16) 100000
    (by decide) (by decide) (by decide)

/-- C2. Size wire format, on a build whose `ICE_BIG_ENDIAN` agrees with the host:
for `0 ≤ v ≤ 254`, `writeSize v` appends exactly one byte, whose value is `v`; for
`255 ≤ v ≤ 2^31 - 1` (and room for five more bytes within the maximum message
size) it appends exactly five bytes, `0xFF` and then the four bytes of `v`, least
significant first.  In particular 0, 1 and 254 take one byte, 255 and 100000
take five. -/
theorem writeSize_wire_format (bld : Build) (hc : bld.coherent) (s : BasicStream) :
    (∀ v : Int, 0 ≤ v → v ≤ 254 →
      ∃ x : Ice.Byte, (x.val : Int) = v ∧
        writeSize bld v s = .ok () { s with b := s.b ++ [x] }) ∧
    (∀ v : Int, 255 ≤ v → v ≤ 2147483647 → s.b.length + 5 ≤ s.messageSizeMax →
      ∃ x0 x1 x2 x3 : Ice.Byte,
        (x0.val : Int) = v % 256 ∧ (x1.val : Int) = v / 256 % 256 ∧
        (x2.val : Int) = v / 65536 % 256 ∧ (x3.val : Int) = v / 16777216 % 256 ∧
        writeSize bld v s = .ok () { s with b := s.b ++ [255, x0, x1, x2, x3] }) ∧
    writeSize bld 0 s = .ok () { s with b := s.b ++ [0] } ∧
    writeSize bld 1 s = .ok () { s with b := s.b ++ [1] } ∧
    writeSize bld 254 s = .ok () { s with b := s.b ++ [254] } ∧
    (s.b.length + 5 ≤ s.messageSizeMax →
      writeSize bld 255 s = .ok () { s with b := s.b ++ [255, 255, 0, 0, 0] } ∧
      writeSize bld 100000 s = .ok () { s with b := s.b ++ [255, 160, 134, 1, 0] }) := by
  have large : ∀ v : Int, 255 ≤ v → s.b.length + 5 ≤ s.messageSizeMax →
      writeSize bld v s = .ok () { s with b := s.b ++ 255 :: littleEndian v } := by
    intro v hv hroom
    rw [writeSize_large bld s v (by omega), if_neg (by omega),
      copyOut_store_of_coherent bld hc]
  refine ⟨?_, ?_, ?_, ?_, ?_, ?_⟩
  · intro v h0 h1
    exact ⟨toByte (pattern32 v), toByte_pattern32_val v h0 (by omega), writeSize_small bld s v h0 h1⟩
  · intro v h0 h1 hroom
    refine ⟨toByte (pattern32 v), toByte (pattern32 v / 256), toByte (pattern32 v / 65536),
      toByte (pattern32 v / 16777216), ?_, ?_, ?_, ?_, large v h0 hroom⟩ <;>
      (simp only [toByte, pattern32]; omega)
  · exact writeSize_small bld s 0 (by decide) (by decide)
  · exact writeSize_small bld s 1 (by decide) (by decide)
  · exact writeSize_small bld s 254 (by decide) (by decide)
  · intro hroom
    exact ⟨large 255 (by decide) hroom, large 100000 (by decide) hroom⟩

/-- Witness for C2: on the big-endian build, 100000 is written to an empty
stream as `FF A0 86 01 00`. -/
theorem writeSize_wire_format_witness :
    bigEndianBuild.coherent ∧
    writeSize bigEndianBuild 100000 (init bigEndianBuild 16) =
      .ok () { init bigEndianBuild 16 with b := [255, 160, 134, 1, 0] } :=
  ⟨by decide,
    ((writeSize_wire_format bigEndianBuild (by decide) (init bigEndianBuild 16)).2.2.2.2.2
      (by decide)).2⟩

/-- C3. `readSize` rejects negative sizes, and only those, on a build whose
`ICE_BIG_ENDIAN` agrees with the host.  When the bytes at the cursor are `0xFF`
followed by four more, `readSize` fails with `NegativeSizeException` exactly
when those four bytes, read as a little-endian signed 32-bit integer, are
negative, and otherwise returns that integer with the cursor 5 bytes further.
When the byte at the cursor is not `0xFF`, `readSize` returns its unsigned
value, which is at most 254, with the cursor 1 byte further. -/
theorem readSize_rejects_negative (bld : Build) (hc : bld.coherent) (s : BasicStream) :
    (∀ (x0 x1 x2 x3 : Ice.Byte) (rest : List Ice.Byte),
      s.b.drop s.i = 255 :: x0 :: x1 :: x2 :: x3 :: rest →
        ((∃ s1, readSize bld s = .raised .NegativeSizeException s1) ↔
          littleEndianInt32 x0 x1 x2 x3 < 0) ∧
        (0 ≤ littleEndianInt32 x0 x1 x2 x3 →
          readSize bld s = .ok (littleEndianInt32 x0 x1 x2 x3) { s with i := s.i + 5 })) ∧
    (∀ (x : Ice.Byte) (rest : List Ice.Byte),
      s.b.drop s.i = x :: rest → x.val ≠ 255 →
        readSize bld s = .ok (x.val : Int) { s with i := s.i + 1 } ∧ x.val ≤ 254 ∧
        ¬ ∃ s1, readSize bld s = .raised .NegativeSizeException s1) := by
  constructor
  · intro x0 x1 x2 x3 rest hdrop
    have hr : readSize bld s =
        if littleEndianInt32 x0 x1 x2 x3 < 0 then
          .raised .NegativeSizeException { s with i := s.i + 1 + 4 }
        else .ok (littleEndianInt32 x0 x1 x2 x3) { s with i := s.i + 1 + 4 } := by
      unfold readSize
      rw [read_Byte_drop s 255 _ hdrop]
      simp only [Outcome.andThen]
      rw [if_pos (by rfl), read_Int_drop bld _ x0 x1 x2 x3 rest (drop_succ_of_drop hdrop)]
      simp only [load_copyIn_of_coherent bld hc]
    constructor
    · constructor
      · rintro ⟨s1, h1⟩
        by_contra hneg
        rw [hr, if_neg hneg] at h1
        cases h1
      · intro hneg
        exact ⟨_, by rw [hr, if_pos hneg]⟩
    · intro hpos
      rw [hr, if_neg (by omega)]
  · intro x rest hdrop hne
    have hr : readSize bld s = .ok (x.val : Int) { s with i := s.i + 1 } := by
      unfold readSize
      rw [read_Byte_drop s x _ hdrop]
      simp only [Outcome.andThen]
      rw [if_neg hne]
    refine ⟨hr, by omega, ?_⟩
    rintro ⟨s1, h1⟩
    rw [hr] at h1
    cases h1

/-- Witness for C3: the bytes `FF FF FF FF FF` denote the size -1 and are
rejected. -/
theorem readSize_rejects_negative_witness :
    littleEndianBuild.coherent ∧
    ∃ s1, readSize littleEndianBuild (holding littleEndianBuild 64 [255, 255, 255, 255, 255] 0)
      = .raised .NegativeSizeException s1 :=
  ⟨by decide,
    (((readSize_rejects_negative littleEndianBuild (by decide)
      (holding littleEndianBuild 64 [255, 255, 255, 255, 255] 0)).1 255 255 255 255 []
        (by decide)).1).2 (by decide)⟩

/-! ## Properties of the fixed-width primitives -/

/-- C4. Primitive round trip for the three codecs of the header.  A byte or a
bool is always written, and reading a value of the same type at the offset where
the write began returns it, with the cursor 1 byte further.  A 32-bit signed
integer (any value from the minimum to the maximum, 0 and -1 among them) is
written exactly when four more bytes fit the maximum message size, and reading
an `Ice::Int` at the offset where the write began returns it, with the cursor
4 bytes further. -/
theorem primitive_roundtrip (bld : Build) (s : BasicStream) :
    (∀ v : Ice.Byte, ∃ s1, write_Byte v s = .ok () s1 ∧
      read_Byte { s1 with i := s.b.length } = .ok v { s1 with i := s.b.length + 1 }) ∧
    (∀ v : Bool, ∃ s1, write_bool v s = .ok () s1 ∧
      read_bool { s1 with i := s.b.length } = .ok v { s1 with i := s.b.length + 1 }) ∧
    (∀ v : Int, -2147483648 ≤ v → v ≤ 2147483647 →
      ((∃ s1, write_Int bld v s = .ok () s1) ↔ s.b.length + 4 ≤ s.messageSizeMax) ∧
      (∀ s1, write_Int bld v s = .ok () s1 →
        read_Int bld { s1 with i := s.b.length } = .ok v { s1 with i := s.b.length + 4 })) ∧
    (s.b.length + 4 ≤ s.messageSizeMax →
      ∀ v : Int, v = 0 ∨ v = -1 ∨ v = -2147483648 ∨ v = 2147483647 →
        ∃ s1, write_Int bld v s = .ok () s1 ∧
          read_Int bld { s1 with i := s.b.length } = .ok v { s1 with i := s.b.length + 4 }) := by
  have hint : ∀ v : Int, -2147483648 ≤ v → v ≤ 2147483647 →
      ∀ s1, write_Int bld v s = .ok () s1 →
        read_Int bld { s1 with i := s.b.length } = .ok v { s1 with i := s.b.length + 4 } := by
    intro v hlo hhi s1 hw
    rw [write_Int_eq] at hw
    split at hw
    · cases hw
    · obtain ⟨x0, x1, x2, x3, hx⟩ := copyOut_cases bld (bld.store v)
      rw [hx] at hw
      injection hw with _ hs
      subst hs
      rw [read_Int_drop bld _ x0 x1 x2 x3 [] (by simp),
        load_copyIn_copyOut_store bld v hlo hhi x0 x1 x2 x3 hx]
  have hok : ∀ v : Int, s.b.length + 4 ≤ s.messageSizeMax → ∃ s1, write_Int bld v s = .ok () s1 := by
    intro v hroom
    exact ⟨_, by rw [write_Int_eq, if_neg (by omega)]⟩
  refine ⟨?_, ?_, ?_, ?_⟩
  · intro v
    refine ⟨_, write_Byte_eq v s, ?_⟩
    exact read_Byte_drop _ v [] (by simp)
  · intro v
    refine ⟨{ s with b := s.b ++ [if v then 1 else 0] }, rfl, ?_⟩
    have h := read_bool_drop { s with b := s.b ++ [if v then 1 else 0], i := s.b.length }
      (if v then 1 else 0) [] (by simp)
    rw [h]
    cases v <;> simp
  · intro v hlo hhi
    refine ⟨⟨?_, hok v⟩, hint v hlo hhi⟩
    rintro ⟨s1, hw⟩
    rw [write_Int_eq] at hw
    split at hw
    · cases hw
    · omega
  · intro hroom v hv
    obtain ⟨s1, hw⟩ := hok v hroom
    exact ⟨s1, hw, hint v (by omega) (by omega) s1 hw⟩

/-- C4 at concrete values: on the big-endian build `true`, `0x80` and the minimum
32-bit integer survive a write followed by a read. -/
theorem primitive_roundtrip_witness :
    (∃ s1, write_bool true (init bigEndianBuild 8) = .ok () s1 ∧
      read_bool { s1 with i := 0 } = .ok true { s1 with i := 1 }) ∧
    (∃ s1, write_Int bigEndianBuild (-2147483648) (init bigEndianBuild 8) = .ok () s1 ∧
      read_Int bigEndianBuild { s1 with i := 0 } = .ok (-2147483648) { s1 with i := 4 }) :=
  ⟨(primitive_roundtrip bigEndianBuild (init bigEndianBuild 8)).2.1 true,
   (primitive_roundtrip bigEndianBuild (init bigEndianBuild 8)).2.2.2 (by decide)
     (-2147483648) (by decide)⟩

/-- C5. Canonical byte order: for every 32-bit integer `v` and every stream with
room for four more bytes, `write(Ice::Int)` appends the same four bytes, the
least significant first, whether it is compiled with `ICE_BIG_ENDIAN` for a host
that stores `v` most significant byte first or without it for a host that
stores `v` least significant byte first; for `v = 0x01020304` they are
`04 03 02 01`. -/
theorem write_Int_canonical_order (big little : Build)
    (hbig : big.ICE_BIG_ENDIAN = true ∧ big.hostBigEndian = true)
    (hlittle : little.ICE_BIG_ENDIAN = false ∧ little.hostBigEndian = false)
    (s : BasicStream) (hroom : s.b.length + 4 ≤ s.messageSizeMax) :
    (∀ v : Int, -2147483648 ≤ v → v ≤ 2147483647 →
      ∃ x0 x1 x2 x3 : Ice.Byte,
        (x0.val : Int) = v % 256 ∧ (x1.val : Int) = v / 256 % 256 ∧
        (x2.val : Int) = v / 65536 % 256 ∧ (x3.val : Int) = v / 16777216 % 256 ∧
        write_Int big v s = .ok () { s with b := s.b ++ [x0, x1, x2, x3] } ∧
        write_Int little v s = .ok () { s with b := s.b ++ [x0, x1, x2, x3] }) ∧
    write_Int big 16909060 s = .ok () { s with b := s.b ++ [4, 3, 2, 1] } ∧
    write_Int little 16909060 s = .ok () { s with b := s.b ++ [4, 3, 2, 1] } := by
  have hcb : big.coherent := by unfold Build.coherent; rw [hbig.1, hbig.2]
  have hcl : little.coherent := by unfold Build.coherent; rw [hlittle.1, hlittle.2]
  have key : ∀ (bld : Build), bld.coherent → ∀ v : Int,
      write_Int bld v s = .ok () { s with b := s.b ++ littleEndian v } := by
    intro bld hc v
    rw [write_Int_eq, if_neg (by omega), copyOut_store_of_coherent bld hc]
  refine ⟨?_, key big hcb 16909060, key little hcl 16909060⟩
  intro v _ _
  refine ⟨toByte (pattern32 v), toByte (pattern32 v / 256), toByte (pattern32 v / 65536),
    toByte (pattern32 v / 16777216), ?_, ?_, ?_, ?_, key big hcb v, key little hcl v⟩ <;>
    (simp only [toByte, pattern32]; omega)

/-- Witness for C5: both sample builds write `0x01020304` to an empty stream as
`04 03 02 01`. -/
theorem write_Int_canonical_order_witness :
    write_Int bigEndianBuild 16909060 (init littleEndianBuild 4) =
      .ok () { init littleEndianBuild 4 with b := [4, 3, 2, 1] } ∧
    write_Int littleEndianBuild 16909060 (init littleEndianBuild 4) =
      .ok () { init littleEndianBuild 4 with b := [4, 3, 2, 1] } :=
  (write_Int_canonical_order bigEndianBuild littleEndianBuild ⟨rfl, rfl⟩ ⟨rfl, rfl⟩
    (init littleEndianBuild 4) (by decide)).2

/-! ## The maximum message size -/

/-- C6. `resize` honours the maximum exactly: `resize(sz)` fails with
`MemoryLimitException` if and only if `sz` exceeds `_messageSizeMax`; when it
fails the stream is as it was, when it returns the buffer has length `sz`, and
it does one or the other.  In particular `resize(max + 1)` fails and
`resize(max)` succeeds. -/
theorem resize_honours_max (bld : Build) (s : BasicStream) (sz : Nat) :
    ((∃ s1, resize bld sz s = .raised .MemoryLimitException s1) ↔ sz > s.messageSizeMax) ∧
    (∀ e s1, resize bld sz s = .raised e s1 → e = .MemoryLimitException ∧ s1 = s) ∧
    (∀ s1, resize bld sz s = .ok () s1 → s1.b.length = sz) ∧
    (sz > s.messageSizeMax → resize bld sz s = .raised .MemoryLimitException s) ∧
    (sz ≤ s.messageSizeMax → ∃ s1, resize bld sz s = .ok () s1 ∧ s1.b.length = sz) ∧
    resize bld (s.messageSizeMax + 1) s = .raised .MemoryLimitException s ∧
    (∃ s1, resize bld s.messageSizeMax s = .ok () s1 ∧ s1.b.length = s.messageSizeMax) := by
  have hfail : ∀ n, n > s.messageSizeMax → resize bld n s = .raised .MemoryLimitException s := by
    intro n hn
    unfold resize
    rw [if_pos hn]
  have hok : ∀ n, n ≤ s.messageSizeMax →
      resize bld n s = .ok () { s with b := Container.resize bld s.b n } := by
    intro n hn
    unfold resize
    rw [if_neg (by omega)]
  refine ⟨⟨?_, fun h => ⟨s, hfail sz h⟩⟩, ?_, ?_, hfail sz, ?_, hfail _ (by omega), ?_⟩
  · rintro ⟨s1, h⟩
    by_contra hle
    rw [hok sz (by omega)] at h
    cases h
  · intro e s1 h
    by_cases hgt : sz > s.messageSizeMax
    · rw [hfail sz hgt] at h
      injection h with he hs
      exact ⟨he.symm, hs.symm⟩
    · rw [hok sz (by omega)] at h
      cases h
  · intro s1 h
    by_cases hgt : sz > s.messageSizeMax
    · rw [hfail sz hgt] at h
      cases h
    · rw [hok sz (by omega)] at h
      injection h with _ hs
      rw [← hs]
      exact Container.resize_length bld s.b sz
  · intro hle
    exact ⟨_, hok sz hle, Container.resize_length bld s.b sz⟩
  · exact ⟨_, hok _ (Nat.le_refl _), Container.resize_length bld s.b _⟩

/-- C6 at concrete values: with a maximum of 8 bytes, `resize(9)` fails and
leaves the three bytes of the stream alone, `resize(8)` returns. -/
theorem resize_honours_max_witness :
    resize littleEndianBuild 9 (holding littleEndianBuild 8 [1, 2, 3] 0) =
      .raised .MemoryLimitException (holding littleEndianBuild 8 [1, 2, 3] 0) ∧
    ∃ s1, resize littleEndianBuild 8 (holding littleEndianBuild 8 [1, 2, 3] 0) = .ok () s1 ∧
      s1.b.length = 8 :=
  ⟨(resize_honours_max littleEndianBuild (holding littleEndianBuild 8 [1, 2, 3] 0) 9).2.2.2.1
      (by decide),
   (resize_honours_max littleEndianBuild (holding littleEndianBuild 8 [1, 2, 3] 0) 8).2.2.2.2.1
      (by decide)⟩

/-! ## Bounds checks of the reads -/

/-- C8. Primitive reads are bounds-checked atomically: from a state with
`cursor ≤ length`, the read of a byte and of a bool (width 1) and of a 32-bit
integer (width 4) fail with `UnmarshalOutOfBoundsException` if and only if
`cursor + width > length`; a failed read leaves cursor and buffer as they were,
a successful one advances the cursor by exactly the width and leaves the buffer
as it was. -/
theorem primitive_reads_bounds_checked (bld : Build) (s : BasicStream)
    (hi : s.i ≤ s.b.length) :
    AtomicRead 1 s (read_Byte s) ∧ AtomicRead 1 s (read_bool s) ∧
      AtomicRead 4 s (read_Int bld s) := by
  refine ⟨?_, ?_, ?_⟩
  · apply atomicRead_of_cases
    · intro h
      unfold read_Byte
      rw [if_pos (by omega)]
    · intro h
      obtain ⟨x, rest, hx⟩ := exists_cons_of_length_pos (s.b.drop s.i)
        (by rw [List.length_drop]; omega)
      exact ⟨x, read_Byte_drop s x rest hx⟩
  · apply atomicRead_of_cases
    · intro h
      unfold read_bool
      rw [if_pos (by omega)]
    · intro h
      obtain ⟨x, rest, hx⟩ := exists_cons_of_length_pos (s.b.drop s.i)
        (by rw [List.length_drop]; omega)
      exact ⟨_, read_bool_drop s x rest hx⟩
  · apply atomicRead_of_cases
    · intro h
      unfold read_Int
      rw [if_pos (by omega)]
    · intro h
      obtain ⟨x0, x1, x2, x3, rest, hx⟩ := exists_four_of_length (s.b.drop s.i)
        (by rw [List.length_drop]; omega)
      exact ⟨_, read_Int_drop bld s x0 x1 x2 x3 rest hx⟩

/-- Witness for C8: with three bytes left, the reads of a byte and of a bool
succeed and the read of an `Ice::Int` is refused. -/
theorem primitive_reads_bounds_checked_witness :
    (holding littleEndianBuild 64 [1, 2, 3, 4, 5] 2).i ≤
      (holding littleEndianBuild 64 [1, 2, 3, 4, 5] 2).b.length ∧
    AtomicRead 1 (holding littleEndianBuild 64 [1, 2, 3, 4, 5] 2)
      (read_Byte (holding littleEndianBuild 64 [1, 2, 3, 4, 5] 2)) ∧
    AtomicRead 1 (holding littleEndianBuild 64 [1, 2, 3, 4, 5] 2)
      (read_bool (holding littleEndianBuild 64 [1, 2, 3, 4, 5] 2)) ∧
    AtomicRead 4 (holding littleEndianBuild 64 [1, 2, 3, 4, 5] 2)
      (read_Int littleEndianBuild (holding littleEndianBuild 64 [1, 2, 3, 4, 5] 2)) :=
  ⟨by decide,
    primitive_reads_bounds_checked littleEndianBuild
      (holding littleEndianBuild 64 [1, 2, 3, 4, 5] 2) (by decide)⟩

/-! ## Encapsulations -/

/-- C9. Write-side encapsulation layout, on a build whose `ICE_BIG_ENDIAN` agrees
with the host: for a stream holding `B` and a payload `p` with
`|B| + 6 + |p|` within the maximum message size and `6 + |p| ≤ 2^31 - 1`,
`startWriteEncaps` (which appends a zero placeholder and the two version bytes),
then `writeBlob` of `p`, then `endWriteEncaps` all return and leave the buffer
equal to `B`, the four bytes of `6 + |p|` least significant first,
`encodingMajor`, `encodingMinor`, and `p`: the placeholder has been patched in
place with the span from `start` to the end, header included, and the frame
opened by `startWriteEncaps` is closed again. -/
theorem writeEncaps_layout (bld : Build) (hc : bld.coherent) (s : BasicStream)
    (p : List Ice.Byte) (hroom : s.b.length + 6 + p.length ≤ s.messageSizeMax)
    (hsz : 6 + p.length ≤ 2147483647) :
    ∃ (s1 s2 s3 : BasicStream) (x0 x1 x2 x3 : Ice.Byte),
      startWriteEncaps bld s = .ok () s1 ∧
      s1.b = s.b ++ [0, 0, 0, 0, bld.encodingMajor, bld.encodingMinor] ∧
      writeBlob bld p p.length s1 = .ok () s2 ∧
      s2.b = s1.b ++ p ∧
      endWriteEncaps bld s2 = .ok () s3 ∧
      x0.val = (6 + p.length) % 256 ∧ x1.val = (6 + p.length) / 256 % 256 ∧
      x2.val = (6 + p.length) / 65536 % 256 ∧ x3.val = (6 + p.length) / 16777216 % 256 ∧
      s3.b = s.b ++ [x0, x1, x2, x3] ++ [bld.encodingMajor, bld.encodingMinor] ++ p ∧
      s3.currentWriteEncaps = s.currentWriteEncaps := by
  obtain ⟨cur, hcur, hstart⟩ := pushWriteEncaps_frames s
  -- startWriteEncaps
  have h1 : startWriteEncaps bld s = .ok ()
      { pushWriteEncaps s with
        b := s.b ++ copyOut bld (bld.store 0) ++ [bld.encodingMajor] ++ [bld.encodingMinor] } := by
    rw [startWriteEncaps_eq, if_neg (by omega)]
  -- writeBlob
  have h2 : writeBlob bld p p.length
      { pushWriteEncaps s with
        b := s.b ++ copyOut bld (bld.store 0) ++ [bld.encodingMajor] ++ [bld.encodingMinor] }
      = .ok ()
      { pushWriteEncaps s with
        b := s.b ++ copyOut bld (bld.store 0) ++ [bld.encodingMajor] ++ [bld.encodingMinor] ++ p } := by
    rw [writeBlob_eq, if_neg]
    rintro ⟨_, hgt⟩
    simp only [List.length_append, copyOut_length, List.length_singleton,
      pushWriteEncaps_max] at hgt
    omega
  -- endWriteEncaps
  obtain ⟨s3, h3, hb3, hf3, _, _, _⟩ := endWriteEncaps_patch bld
    { pushWriteEncaps s with
      b := s.b ++ copyOut bld (bld.store 0) ++ [bld.encodingMajor] ++ [bld.encodingMinor] ++ p }
    cur s.currentWriteEncaps s.b (copyOut bld (bld.store 0))
    ([bld.encodingMajor, bld.encodingMinor] ++ p) hcur hstart (by simp) (copyOut_length _ _)
  have hval : toInt32 (4 + (([bld.encodingMajor, bld.encodingMinor] ++ p).length : Int))
      = ((6 + p.length : Nat) : Int) := by
    rw [toInt32_of_range] <;> simp <;> omega
  rw [hval, copyOut_store_of_coherent bld hc] at hb3
  refine ⟨_, _, s3, toByte (pattern32 ((6 + p.length : Nat) : Int)),
    toByte (pattern32 ((6 + p.length : Nat) : Int) / 256),
    toByte (pattern32 ((6 + p.length : Nat) : Int) / 65536),
    toByte (pattern32 ((6 + p.length : Nat) : Int) / 16777216),
    h1, ?_, h2, rfl, h3, ?_, ?_, ?_, ?_, ?_, hf3⟩
  · simp [copyOut_store_zero]
  · simp only [toByte, pattern32]; omega
  · simp only [toByte, pattern32]; omega
  · simp only [toByte, pattern32]; omega
  · simp only [toByte, pattern32]; omega
  · rw [hb3]; simp [littleEndian]

/-- Witness for C9: an encapsulation holding the payload `AA BB` after the byte
`07`, on the big-endian build. -/
theorem writeEncaps_layout_witness :
    bigEndianBuild.coherent ∧
    ∃ (s1 s2 s3 : BasicStream) (x0 x1 x2 x3 : Ice.Byte),
      startWriteEncaps bigEndianBuild (holding bigEndianBuild 32 [7] 0) = .ok () s1 ∧
      s1.b = (holding bigEndianBuild 32 [7] 0).b ++
        [0, 0, 0, 0, bigEndianBuild.encodingMajor, bigEndianBuild.encodingMinor] ∧
      writeBlob bigEndianBuild [170, 187] ([170, 187] : List Ice.Byte).length s1 = .ok () s2 ∧
      s2.b = s1.b ++ [170, 187] ∧
      endWriteEncaps bigEndianBuild s2 = .ok () s3 ∧
      x0.val = (6 + ([170, 187] : List Ice.Byte).length) % 256 ∧
      x1.val = (6 + ([170, 187] : List Ice.Byte).length) / 256 % 256 ∧
      x2.val = (6 + ([170, 187] : List Ice.Byte).length) / 65536 % 256 ∧
      x3.val = (6 + ([170, 187] : List Ice.Byte).length) / 16777216 % 256 ∧
      s3.b = (holding bigEndianBuild 32 [7] 0).b ++ [x0, x1, x2, x3] ++
        [bigEndianBuild.encodingMajor, bigEndianBuild.encodingMinor] ++ [170, 187] ∧
      s3.currentWriteEncaps = (holding bigEndianBuild 32 [7] 0).currentWriteEncaps :=
  ⟨by decide,
    writeEncaps_layout bigEndianBuild (by decide) (holding bigEndianBuild 32 [7] 0) [170, 187]
      (by decide) (by decide)⟩

/-- C10. Validation in `startReadEncaps`, on a build whose `ICE_BIG_ENDIAN`
agrees with the host.  Let the cursor be at `start` with at least six bytes
left, `size` the little-endian signed 32-bit integer at `start`, and `major`,
`minor` the two bytes after it.  Then `startReadEncaps` fails with
`NegativeSizeException` if `size < 0`; otherwise with
`UnmarshalOutOfBoundsException` if `start + size` exceeds the buffer length;
otherwise with `UnsupportedEncodingException` if `major` differs from
`encodingMajor` or `minor`, as an unsigned byte, exceeds `encodingMinor`; and
otherwise it returns with the cursor at `start + 6`, the buffer untouched, and
a new current read frame holding `start`, `size`, `major` and `minor` on top of
the frames there were. -/
theorem startReadEncaps_validation (bld : Build) (hc : bld.coherent) (s : BasicStream)
    (x0 x1 x2 x3 major minor : Ice.Byte) (rest : List Ice.Byte)
    (hdrop : s.b.drop s.i = x0 :: x1 :: x2 :: x3 :: major :: minor :: rest) :
    (littleEndianInt32 x0 x1 x2 x3 < 0 →
      ∃ s1, startReadEncaps bld s = .raised .NegativeSizeException s1) ∧
    (0 ≤ littleEndianInt32 x0 x1 x2 x3 →
      (s.i : Int) + littleEndianInt32 x0 x1 x2 x3 > (s.b.length : Int) →
      ∃ s1, startReadEncaps bld s = .raised .UnmarshalOutOfBoundsException s1) ∧
    (0 ≤ littleEndianInt32 x0 x1 x2 x3 →
      (s.i : Int) + littleEndianInt32 x0 x1 x2 x3 ≤ (s.b.length : Int) →
      (major ≠ bld.encodingMajor ∨ minor.val > bld.encodingMinor.val) →
      ∃ s1, startReadEncaps bld s = .raised (.UnsupportedEncodingException major minor) s1) ∧
    (0 ≤ littleEndianInt32 x0 x1 x2 x3 →
      (s.i : Int) + littleEndianInt32 x0 x1 x2 x3 ≤ (s.b.length : Int) →
      major = bld.encodingMajor → minor.val ≤ bld.encodingMinor.val →
      ∃ s1, startReadEncaps bld s = .ok () s1 ∧ s1.i = s.i + 6 ∧ s1.b = s.b ∧
        s1.currentReadEncaps =
          { start := s.i, sz := littleEndianInt32 x0 x1 x2 x3,
            encodingMajor := major, encodingMinor := minor } :: s.currentReadEncaps) := by
  obtain ⟨fr, hfr, heq⟩ := startReadEncaps_eq bld hc s x0 x1 x2 x3 major minor rest hdrop
  refine ⟨?_, ?_, ?_, ?_⟩
  · intro hneg
    exact ⟨_, by rw [heq, if_pos hneg]⟩
  · intro hpos hoob
    exact ⟨_, by rw [heq, if_neg (by omega), if_pos hoob]⟩
  · intro hpos hin hver
    exact ⟨_, by rw [heq, if_neg (by omega), if_neg (by omega), if_pos hver]⟩
  · intro hpos hin hmajor hminor
    have hver : ¬ (major ≠ bld.encodingMajor ∨ minor.val > bld.encodingMinor.val) := by
      rintro (h | h)
      · exact h hmajor
      · omega
    have hok := heq
    rw [if_neg (by omega), if_neg (by omega), if_neg hver, hfr] at hok
    exact ⟨_, hok, rfl, rfl, rfl⟩

/-- Witness for C10: the header `08 00 00 00 01 00` followed by two payload
bytes is accepted at the start of an eight-byte buffer. -/
theorem startReadEncaps_validation_witness :
    littleEndianBuild.coherent ∧
    ∃ s1, startReadEncaps littleEndianBuild
        (holding littleEndianBuild 64 [8, 0, 0, 0, 1, 0, 170, 187] 0) = .ok () s1 ∧
      s1.i = (holding littleEndianBuild 64 [8, 0, 0, 0, 1, 0, 170, 187] 0).i + 6 ∧
      s1.b = (holding littleEndianBuild 64 [8, 0, 0, 0, 1, 0, 170, 187] 0).b ∧
      s1.currentReadEncaps =
        { start := (holding littleEndianBuild 64 [8, 0, 0, 0, 1, 0, 170, 187] 0).i,
          sz := littleEndianInt32 8 0 0 0, encodingMajor := 1, encodingMinor := 0 } ::
          (holding littleEndianBuild 64 [8, 0, 0, 0, 1, 0, 170, 187] 0).currentReadEncaps :=
  ⟨by decide,
    (startReadEncaps_validation littleEndianBuild (by decide)
      (holding littleEndianBuild 64 [8, 0, 0, 0, 1, 0, 170, 187] 0) 8 0 0 0 1 0 [170, 187]
      (by decide)).2.2.2 (by decide) (by decide) (by decide) (by decide)⟩

/-! ## Which growth the maximum message size bounds -/

/-- C7 fails as stated: the single-byte appends go through `push_back`, which
does not pass through the check in `resize`.  With a maximum of 4 bytes,
`write(Ice::Byte)` on a stream that already holds 4 bytes returns with 5 bytes,
and `startWriteEncaps` on an empty stream returns with 6 bytes; neither fails
with `MemoryLimitException`. -/
theorem write_exceeds_max_counterexample :
    (holding littleEndianBuild 4 [1, 2, 3, 4] 0).b.length ≤
      (holding littleEndianBuild 4 [1, 2, 3, 4] 0).messageSizeMax ∧
    write_Byte 7 (holding littleEndianBuild 4 [1, 2, 3, 4] 0) =
      .ok () { holding littleEndianBuild 4 [1, 2, 3, 4] 0 with b := [1, 2, 3, 4, 7] } ∧
    ¬ Capped 0 (holding littleEndianBuild 4 [1, 2, 3, 4] 0)
      (write_Byte 7 (holding littleEndianBuild 4 [1, 2, 3, 4] 0)) ∧
    (init littleEndianBuild 4).b.length ≤ (init littleEndianBuild 4).messageSizeMax ∧
    startWriteEncaps littleEndianBuild (init littleEndianBuild 4) =
      .ok () { pushWriteEncaps (init littleEndianBuild 4) with b := [0, 0, 0, 0, 1, 0] } ∧
    ¬ Capped 0 (init littleEndianBuild 4)
      (startWriteEncaps littleEndianBuild (init littleEndianBuild 4)) := by
  have hstart : startWriteEncaps littleEndianBuild (init littleEndianBuild 4) =
      .ok () { pushWriteEncaps (init littleEndianBuild 4) with b := [0, 0, 0, 0, 1, 0] } := by
    rw [startWriteEncaps_eq, if_neg (by decide)]
    rfl
  refine ⟨by decide, rfl, ?_, by decide, hstart, ?_⟩
  · rintro (⟨s1, h⟩ | ⟨s1, h, hl⟩)
    · cases h
    · injection h with _ hs
      subst hs
      revert hl
      decide
  · rw [hstart]
    rintro (⟨s1, h⟩ | ⟨s1, h, hl⟩)
    · cases h
    · injection h with _ hs
      subst hs
      revert hl
      decide

/-- C7, amended.  Only growth through `resize` is checked against the maximum
message size.  From a stream whose buffer is within the maximum, `write` of a
32-bit integer and `writeBlob` either fail with `MemoryLimitException` or return
with the buffer still within the maximum; `write` of a byte and of a bool always
return, with one byte more; `writeSize` of a size `v ≥ 0` and `write` of a
string of at most `2^31 - 1` bytes either fail with `MemoryLimitException` or
return with at most one byte beyond the maximum; `startWriteEncaps` either fails
with `MemoryLimitException` or returns with at most two bytes beyond it. -/
theorem write_growth_capped (bld : Build) (s : BasicStream)
    (hlen : s.b.length ≤ s.messageSizeMax) :
    (∀ v : Ice.Byte, Capped 1 s (write_Byte v s) ∧
      ∃ s1, write_Byte v s = .ok () s1 ∧ s1.b.length = s.b.length + 1) ∧
    (∀ v : Bool, Capped 1 s (write_bool v s) ∧
      ∃ s1, write_bool v s = .ok () s1 ∧ s1.b.length = s.b.length + 1) ∧
    (∀ v : Int, Capped 0 s (write_Int bld v s)) ∧
    (∀ v : Int, 0 ≤ v → Capped 1 s (writeSize bld v s)) ∧
    (∀ v : List Ice.Byte, v.length ≤ 2147483647 → Capped 1 s (write_string bld v s)) ∧
    (∀ p : List Ice.Byte, Capped 0 s (writeBlob bld p p.length s)) ∧
    Capped 2 s (startWriteEncaps bld s) := by
  have hsize : ∀ v : Int, 0 ≤ v →
      (∃ s1, writeSize bld v s = .raised .MemoryLimitException s1) ∨
      (∃ s1, writeSize bld v s = .ok () s1 ∧ s1.messageSizeMax = s.messageSizeMax ∧
        ((v ≤ 254 ∧ s1.b.length = s.b.length + 1) ∨
         (254 < v ∧ s1.b.length = s.b.length + 5 ∧ s1.b.length ≤ s.messageSizeMax))) := by
    intro v h0
    by_cases hv : v ≤ 254
    · exact Or.inr ⟨_, writeSize_small bld s v h0 hv, rfl, Or.inl ⟨hv, by simp⟩⟩
    · rw [writeSize_large bld s v (by omega)]
      by_cases hroom : s.b.length + 5 > s.messageSizeMax
      · rw [if_pos hroom]; exact Or.inl ⟨_, rfl⟩
      · rw [if_neg hroom]
        have hl : (s.b ++ 255 :: copyOut bld (bld.store v)).length = s.b.length + 5 := by
          simp [copyOut_length]
        exact Or.inr ⟨_, rfl, rfl, Or.inr ⟨by omega, hl, by rw [hl]; omega⟩⟩
  refine ⟨?_, ?_, ?_, ?_, ?_, ?_, ?_⟩
  · intro v
    exact ⟨Or.inr ⟨_, write_Byte_eq v s, by simp; omega⟩, _, write_Byte_eq v s, by simp⟩
  · intro v
    have h : write_bool v s = .ok () { s with b := s.b ++ [if v then 1 else 0] } := rfl
    exact ⟨Or.inr ⟨_, h, by simp; omega⟩, _, h, by simp⟩
  · intro v
    rw [write_Int_eq]
    by_cases hroom : s.b.length + 4 > s.messageSizeMax
    · rw [if_pos hroom]; exact Or.inl ⟨_, rfl⟩
    · rw [if_neg hroom]
      exact Or.inr ⟨_, rfl, by simp [copyOut_length]; omega⟩
  · intro v h0
    rcases hsize v h0 with ⟨s1, h⟩ | ⟨s1, h, _, hcase⟩
    · exact Or.inl ⟨s1, h⟩
    · refine Or.inr ⟨s1, h, ?_⟩
      rcases hcase with ⟨_, hl⟩ | ⟨_, _, hl⟩ <;> omega
  · intro v hv
    rw [write_string_eq bld v s hv]
    rcases hsize (v.length : Int) (by omega) with ⟨s1, h⟩ | ⟨s1, h, hmax, hcase⟩
    · rw [h]; exact Or.inl ⟨s1, rfl⟩
    · rw [h]
      simp only [Outcome.andThen]
      by_cases hz : v.length = 0
      · rw [if_pos hz]
        refine Or.inr ⟨s1, rfl, ?_⟩
        rcases hcase with ⟨_, hl⟩ | ⟨_, _, hl⟩ <;> omega
      · rw [if_neg hz]
        by_cases hroom : s1.b.length + v.length > s1.messageSizeMax
        · rw [if_pos hroom]; exact Or.inl ⟨s1, rfl⟩
        · rw [if_neg hroom]
          exact Or.inr ⟨_, rfl, by simp; omega⟩
  · intro p
    rw [writeBlob_eq]
    by_cases hroom : p.length > 0 ∧ s.b.length + p.length > s.messageSizeMax
    · rw [if_pos hroom]; exact Or.inl ⟨_, rfl⟩
    · rw [if_neg hroom]
      refine Or.inr ⟨_, rfl, ?_⟩
      simp only [List.length_append]
      by_cases hp : p.length > 0
      · have : ¬ (s.b.length + p.length > s.messageSizeMax) := fun h => hroom ⟨hp, h⟩
        omega
      · omega
  · rw [startWriteEncaps_eq]
    by_cases hroom : s.b.length + 4 > s.messageSizeMax
    · rw [if_pos hroom]; exact Or.inl ⟨_, rfl⟩
    · rw [if_neg hroom]
      exact Or.inr ⟨_, rfl, by simp [copyOut_length]; omega⟩

/-- Witness for the amended C7: the operations on a stream that holds 3 of at
most 4 bytes. -/
theorem write_growth_capped_witness :
    (holding littleEndianBuild 4 [1, 2, 3] 0).b.length ≤
      (holding littleEndianBuild 4 [1, 2, 3] 0).messageSizeMax ∧
    Capped 0 (holding littleEndianBuild 4 [1, 2, 3] 0)
      (write_Int littleEndianBuild 5 (holding littleEndianBuild 4 [1, 2, 3] 0)) ∧
    Capped 2 (holding littleEndianBuild 4 [1, 2, 3] 0)
      (startWriteEncaps littleEndianBuild (holding littleEndianBuild 4 [1, 2, 3] 0)) :=
  ⟨by decide,
    (write_growth_capped littleEndianBuild (holding littleEndianBuild 4 [1, 2, 3] 0)
      (by decide)).2.2.1 5,
    (write_growth_capped littleEndianBuild (holding littleEndianBuild 4 [1, 2, 3] 0)
      (by decide)).2.2.2.2.2.2⟩

end IceInternal.BasicStream

/-! ## How the reads move the cursor -/

namespace IceInternal.BasicStream

theorem Advances.refl_ok {α : Type} (s : BasicStream) (v : α) (h : s.i ≤ s.b.length) :
    Advances s (Outcome.ok v s) :=
  ⟨0, rfl, by simpa using h⟩

theorem advances_ok {α : Type} (s : BasicStream) (v : α) (k : Nat) (h : s.i + k ≤ s.b.length) :
    Advances s (Outcome.ok v { s with i := s.i + k }) := ⟨k, rfl, h⟩

theorem advances_raised {α : Type} (s : BasicStream) (e : Exception) (k : Nat)
    (h : s.i + k ≤ s.b.length) :
    Advances s (Outcome.raised e { s with i := s.i + k } : Outcome α) := ⟨k, rfl, h⟩

theorem advances_raised_same {α : Type} (s : BasicStream) (e : Exception)
    (h : s.i ≤ s.b.length) : Advances s (Outcome.raised e s : Outcome α) :=
  ⟨0, rfl, by simpa using h⟩

theorem Advances.andThen {α β : Type} {s : BasicStream} {r : Outcome α}
    {f : α → BasicStream → Outcome β} (hr : Advances s r)
    (hf : ∀ v k, s.i + k ≤ s.b.length → Advances { s with i := s.i + k } (f v { s with i := s.i + k })) :
    Advances s (r.andThen f) := by
  obtain ⟨k, hk, hle⟩ := hr
  cases r with
  | ok v s1 =>
    simp only [Outcome.state?, Option.some.injEq] at hk
    subst hk
    obtain ⟨k2, hk2, hle2⟩ := hf v k hle
    refine ⟨k + k2, ?_, ?_⟩
    · simp only [Outcome.andThen]
      rw [hk2]
      simp [Nat.add_assoc]
    · simp only [] at hle2
      omega
  | raised e s1 =>
    simp only [Outcome.state?, Option.some.injEq] at hk
    subst hk
    exact ⟨k, rfl, hle⟩
  | assertFailed => simp [Outcome.state?] at hk
  | undefined => simp [Outcome.state?] at hk

theorem Advances.discard {α : Type} {s : BasicStream} {r : Outcome α} (hr : Advances s r) :
    Advances s (discard r) := by
  obtain ⟨k, hk, hle⟩ := hr
  refine ⟨k, ?_, hle⟩
  cases r with
  | ok v s1 => exact hk
  | raised e s1 => exact hk
  | assertFailed => exact hk
  | undefined => exact hk

theorem advances_read_Byte (s : BasicStream) (hi : s.i ≤ s.b.length) :
    Advances s (read_Byte s) := by
  by_cases h : s.i ≥ s.b.length
  · unfold read_Byte
    rw [if_pos h]
    exact advances_raised_same s _ hi
  · obtain ⟨x, rest, hx⟩ := exists_cons_of_length_pos (s.b.drop s.i)
      (by rw [List.length_drop]; omega)
    rw [read_Byte_drop s x rest hx]
    exact advances_ok s x 1 (by omega)

theorem advances_read_bool (s : BasicStream) (hi : s.i ≤ s.b.length) :
    Advances s (read_bool s) := by
  by_cases h : s.i ≥ s.b.length
  · unfold read_bool
    rw [if_pos h]
    exact advances_raised_same s _ hi
  · obtain ⟨x, rest, hx⟩ := exists_cons_of_length_pos (s.b.drop s.i)
      (by rw [List.length_drop]; omega)
    rw [read_bool_drop s x rest hx]
    exact advances_ok s _ 1 (by omega)

theorem advances_read_Int (bld : Build) (s : BasicStream) (hi : s.i ≤ s.b.length) :
    Advances s (read_Int bld s) := by
  by_cases h : (s.b.length : Int) - (s.i : Int) < 4
  · unfold read_Int
    rw [if_pos h]
    exact advances_raised_same s _ hi
  · obtain ⟨x0, x1, x2, x3, rest, hx⟩ := exists_four_of_length (s.b.drop s.i)
      (by rw [List.length_drop]; omega)
    rw [read_Int_drop bld s x0 x1 x2 x3 rest hx]
    exact advances_ok s _ 4 (by omega)

theorem advances_readSize (bld : Build) (s : BasicStream) (hi : s.i ≤ s.b.length) :
    Advances s (readSize bld s) := by
  unfold readSize
  apply Advances.andThen (advances_read_Byte s hi)
  intro byte k hk
  split
  · apply Advances.andThen (advances_read_Int bld _ hk)
    intro v k2 hk2
    split
    · exact advances_raised_same _ _ hk2
    · exact Advances.refl_ok _ _ hk2
  · exact Advances.refl_ok _ _ hk

theorem advances_read_string (bld : Build) (s : BasicStream) (hi : s.i ≤ s.b.length) :
    Advances s (read_string bld s) := by
  unfold read_string
  apply Advances.andThen (advances_readSize bld s hi)
  intro sz k hk
  split
  · split
    · exact advances_raised_same _ _ hk
    · next hpos hroom =>
      refine advances_ok _ _ sz.toNat ?_
      simp only [] at hroom hk ⊢
      omega
  · exact Advances.refl_ok _ _ hk

theorem advances_readBlob (sz : Nat) (s : BasicStream) (hi : s.i ≤ s.b.length) :
    Advances s (readBlob sz s) := by
  unfold readBlob
  split
  · rw [if_neg (by omega)]
    split
    · exact advances_raised_same s _ hi
    · exact advances_ok s _ sz (by omega)
  · exact Advances.refl_ok _ _ hi

theorem advances_call (bld : Build) (op : ReadOp) (hop : op.framing = false)
    (s : BasicStream) (hi : s.i ≤ s.b.length) : Advances s (op.call bld s) := by
  cases op with
  | byte => exact (advances_read_Byte s hi).discard
  | bool => exact (advances_read_bool s hi).discard
  | int => exact (advances_read_Int bld s hi).discard
  | size => exact (advances_readSize bld s hi).discard
  | string => exact (advances_read_string bld s hi).discard
  | blob sz => exact (advances_readBlob sz s hi).discard
  | startEncaps => simp [ReadOp.framing] at hop
  | endEncaps => simp [ReadOp.framing] at hop

theorem advances_runAll (bld : Build) (ops : List ReadOp)
    (hops : ∀ op ∈ ops, op.framing = false) (s : BasicStream) (hi : s.i ≤ s.b.length) :
    Advances s (runAll bld ops s) := by
  induction ops generalizing s with
  | nil => exact Advances.refl_ok s () hi
  | cons op ops ih =>
    unfold runAll
    apply Advances.andThen (advances_call bld op (hops op (List.mem_cons_self _ _)) s hi)
    intro _ k hk
    exact ih (fun o ho => hops o (List.mem_cons_of_mem _ ho)) _ hk

theorem endReadEncaps_of_frames (bld : Build) (s : BasicStream) (cur : ReadEncaps)
    (previous : List ReadEncaps) (hframes : s.currentReadEncaps = cur :: previous)
    (hpos : 0 ≤ (cur.start : Int) + cur.sz) :
    ∃ s1, endReadEncaps bld s = .ok () s1 ∧ (s1.i : Int) = (cur.start : Int) + cur.sz ∧
      s1.currentReadEncaps = previous ∧ s1.b = s.b ∧
      s1.currentWriteEncaps = s.currentWriteEncaps ∧ s1.messageSizeMax = s.messageSizeMax := by
  unfold endReadEncaps
  rw [hframes]
  simp only [if_neg (not_lt.mpr hpos)]
  cases previous with
  | nil => exact ⟨_, rfl, by simp; omega, rfl, rfl, rfl, rfl⟩
  | cons q qs => exact ⟨_, rfl, by simp; omega, rfl, rfl, rfl, rfl⟩

/-! ## Nested encapsulations, written and read -/

theorem encodedSize_cons (p : List Ice.Byte) (ps : List (List Ice.Byte)) :
    encodedSize (p :: ps) = 6 + p.length + encodedSize ps := by
  simp [encodedSize]

theorem nestedEncaps_length (bld : Build) (ps : List (List Ice.Byte)) :
    (nestedEncaps bld ps).length = encodedSize ps := by
  induction ps with
  | nil => rfl
  | cons p ps ih =>
    rw [encodedSize_cons]
    simp only [nestedEncaps, List.length_append, ih, littleEndian, List.length_cons,
      List.length_nil]

theorem littleEndianInt32_littleEndian (v : Int) (hlo : -2147483648 ≤ v) (hhi : v ≤ 2147483647) :
    littleEndianInt32 (toByte (pattern32 v)) (toByte (pattern32 v / 256))
      (toByte (pattern32 v / 65536)) (toByte (pattern32 v / 16777216)) = v := by
  unfold littleEndianInt32
  rw [bytes_recombine (pattern32 v) (pattern32_lt v)]
  exact ofPattern32_pattern32 v hlo hhi

theorem drop_add_of_drop {l : List Ice.Byte} {i : Nat} (pre post : List Ice.Byte)
    (h : l.drop i = pre ++ post) : l.drop (i + pre.length) = post := by
  rw [← List.drop_drop, h]
  simp

theorem readBlob_ok (n : Nat) (s : BasicStream) (h : s.i + n ≤ s.b.length) :
    readBlob n s = .ok s.i { s with i := s.i + n } := by
  unfold readBlob
  by_cases hn : n > 0
  · rw [if_pos hn, if_neg (by omega), if_neg (by omega)]
  · have : n = 0 := by omega
    subst this
    rw [if_neg hn]
    rfl

theorem writeNested_eq (bld : Build) (hc : bld.coherent) (ps : List (List Ice.Byte))
    (s : BasicStream) (hroom : s.b.length + encodedSize ps ≤ s.messageSizeMax)
    (hsz : encodedSize ps ≤ 2147483647) :
    ∃ s1, writeNested bld ps s = .ok () s1 ∧ s1.b = s.b ++ nestedEncaps bld ps ∧
      s1.currentWriteEncaps = s.currentWriteEncaps ∧ s1.messageSizeMax = s.messageSizeMax ∧
      s1.currentReadEncaps = s.currentReadEncaps := by
  induction ps generalizing s with
  | nil => exact ⟨s, rfl, by simp [nestedEncaps], rfl, rfl, rfl⟩
  | cons p ps ih =>
    rw [encodedSize_cons] at hroom hsz
    obtain ⟨cur, hcur, hstart⟩ := pushWriteEncaps_frames s
    have h1 : startWriteEncaps bld s = .ok ()
        { pushWriteEncaps s with
          b := s.b ++ copyOut bld (bld.store 0) ++ [bld.encodingMajor] ++ [bld.encodingMinor] } := by
      rw [startWriteEncaps_eq, if_neg (by omega)]
    have h2 : writeBlob bld p p.length
        { pushWriteEncaps s with
          b := s.b ++ copyOut bld (bld.store 0) ++ [bld.encodingMajor] ++ [bld.encodingMinor] }
        = .ok ()
        { pushWriteEncaps s with
          b := s.b ++ copyOut bld (bld.store 0) ++ [bld.encodingMajor] ++ [bld.encodingMinor]
            ++ p } := by
      rw [writeBlob_eq, if_neg]
      rintro ⟨_, hgt⟩
      simp only [List.length_append, copyOut_length, List.length_singleton,
        pushWriteEncaps_max] at hgt
      omega
    obtain ⟨s3, h3, hb3, hf3, hm3, hr3⟩ := ih
      { pushWriteEncaps s with
        b := s.b ++ copyOut bld (bld.store 0) ++ [bld.encodingMajor] ++ [bld.encodingMinor]
          ++ p }
      (by simp only [List.length_append, copyOut_length, List.length_singleton,
            pushWriteEncaps_max]; omega)
      (by omega)
    simp only [] at hb3 hf3 hm3 hr3
    obtain ⟨s4, h4, hb4, hf4, _, hr4, hm4⟩ := endWriteEncaps_patch bld s3 cur
      s.currentWriteEncaps s.b (copyOut bld (bld.store 0))
      ([bld.encodingMajor, bld.encodingMinor] ++ p ++ nestedEncaps bld ps)
      (by rw [hf3, hcur]) hstart (by rw [hb3]; simp) (copyOut_length _ _)
    have hval : toInt32 (4 + (([bld.encodingMajor, bld.encodingMinor] ++ p
        ++ nestedEncaps bld ps).length : Int))
        = ((6 + p.length + encodedSize ps : Nat) : Int) := by
      rw [toInt32_of_range] <;> simp [nestedEncaps_length] <;> omega
    rw [hval, copyOut_store_of_coherent bld hc] at hb4
    refine ⟨s4, ?_, ?_, hf4, ?_, ?_⟩
    · simp only [writeNested, h1, Outcome.andThen, h2, h3, h4]
    · rw [hb4]; simp [nestedEncaps]
    · rw [hm4, hm3, pushWriteEncaps_max]
    · rw [hr4, hr3]
      unfold pushWriteEncaps
      split <;> rfl

theorem readNested_eq (bld : Build) (hc : bld.coherent) (ps : List (List Ice.Byte))
    (s : BasicStream) (tail : List Ice.Byte)
    (hdrop : s.b.drop s.i = nestedEncaps bld ps ++ tail)
    (hsz : encodedSize ps ≤ 2147483647) :
    ∃ s1, readNested bld (ps.map List.length) s =
        .ok (ps.map fun p => (p, some (bld.encodingMajor, bld.encodingMinor))) s1 ∧
      s1.i = s.i + encodedSize ps ∧ s1.b = s.b ∧
      s1.currentReadEncaps = s.currentReadEncaps := by
  induction ps generalizing s with
  | nil => exact ⟨s, rfl, by simp [encodedSize], rfl, rfl⟩
  | cons p ps ih =>
    rw [encodedSize_cons] at hsz
    have hlen : s.i + (encodedSize (p :: ps) + tail.length) = s.b.length := by
      have h := congrArg List.length hdrop
      rw [List.length_drop, List.length_append, nestedEncaps_length] at h
      have hpos : 0 < encodedSize (p :: ps) := by rw [encodedSize_cons]; omega
      omega
    rw [encodedSize_cons] at hlen
    -- the six bytes of the header and what follows them
    have hdrop6 : s.b.drop s.i =
        toByte (pattern32 ((6 + p.length + encodedSize ps : Nat) : Int)) ::
        toByte (pattern32 ((6 + p.length + encodedSize ps : Nat) : Int) / 256) ::
        toByte (pattern32 ((6 + p.length + encodedSize ps : Nat) : Int) / 65536) ::
        toByte (pattern32 ((6 + p.length + encodedSize ps : Nat) : Int) / 16777216) ::
        bld.encodingMajor :: bld.encodingMinor :: (p ++ (nestedEncaps bld ps ++ tail)) := by
      rw [hdrop]; simp [nestedEncaps, littleEndian]
    have hsize := littleEndianInt32_littleEndian ((6 + p.length + encodedSize ps : Nat) : Int)
      (by omega) (by omega)
    obtain ⟨fr, hfr, heq⟩ := startReadEncaps_eq bld hc s _ _ _ _ _ _ _ hdrop6
    rw [hsize, if_neg (by omega), if_neg (by omega), if_neg (by simp), hfr] at heq
    -- the payload
    have hrest : s.b.drop (s.i + 6) = p ++ (nestedEncaps bld ps ++ tail) := by
      have := drop_add_of_drop
        [toByte (pattern32 ((6 + p.length + encodedSize ps : Nat) : Int)),
         toByte (pattern32 ((6 + p.length + encodedSize ps : Nat) : Int) / 256),
         toByte (pattern32 ((6 + p.length + encodedSize ps : Nat) : Int) / 65536),
         toByte (pattern32 ((6 + p.length + encodedSize ps : Nat) : Int) / 16777216),
         bld.encodingMajor, bld.encodingMinor] (p ++ (nestedEncaps bld ps ++ tail))
        (by rw [hdrop6]; rfl)
      simpa using this
    have hblob := readBlob_ok p.length
      { s with
        currentReadEncaps :=
          { start := s.i, sz := ((6 + p.length + encodedSize ps : Nat) : Int),
            encodingMajor := bld.encodingMajor, encodingMinor := bld.encodingMinor }
            :: s.currentReadEncaps,
        i := s.i + 4 + 1 + 1 }
      (by simp only []; omega)
    -- the encapsulations nested inside
    obtain ⟨s3, h3, hi3, hb3, hf3⟩ := ih
      { s with
        currentReadEncaps :=
          { start := s.i, sz := ((6 + p.length + encodedSize ps : Nat) : Int),
            encodingMajor := bld.encodingMajor, encodingMinor := bld.encodingMinor }
            :: s.currentReadEncaps,
        i := s.i + 4 + 1 + 1 + p.length }
      (by
        simp only []
        have := drop_add_of_drop p (nestedEncaps bld ps ++ tail) hrest
        rw [show s.i + 4 + 1 + 1 + p.length = s.i + 6 + p.length by omega]
        exact this)
      (by omega)
    simp only [] at hi3 hb3 hf3
    obtain ⟨s4, h4, hi4, hf4, hb4, _⟩ := endReadEncaps_of_frames bld s3
      { start := s.i, sz := ((6 + p.length + encodedSize ps : Nat) : Int),
        encodingMajor := bld.encodingMajor, encodingMinor := bld.encodingMinor }
      s.currentReadEncaps hf3 (by simp only []; omega)
    refine ⟨s4, ?_, ?_, ?_, hf4⟩
    · simp only [List.map_cons, readNested, heq, Outcome.andThen, hblob, h3, h4]
      have hpay : blobAt
          { s with
            currentReadEncaps :=
              { start := s.i, sz := ((6 + p.length + encodedSize ps : Nat) : Int),
                encodingMajor := bld.encodingMajor, encodingMinor := bld.encodingMinor }
                :: s.currentReadEncaps,
            i := s.i + 4 + 1 + 1 } (s.i + 4 + 1 + 1) p.length = p := by
        unfold blobAt
        simp only []
        rw [show s.i + 4 + 1 + 1 = s.i + 6 by omega, hrest]
        simp
      rw [hpay]
      rfl
    · simp only [] at hi4
      rw [encodedSize_cons]
      omega
    · rw [hb4, hb3]

/-- C12. Nested encapsulation round trip, on a build whose `ICE_BIG_ENDIAN`
agrees with the host.  For payloads `p_1 .. p_d` (any depth, `d = 3` included)
whose encoded size, six bytes of header and the payload at every level, fits the
maximum message size and `2^31 - 1`: writing on an empty stream
`startWriteEncaps`, `p_1`, ..., `startWriteEncaps`, `p_d` and `d` times
`endWriteEncaps` returns; reading from cursor 0 with `startReadEncaps`,
`readBlob` of `|p_k|` bytes at every level and `d` times `endReadEncaps` then
returns as well, every frame has recorded the version `encodingMajor`,
`encodingMinor`, the bytes read at level `k` are `p_k`, and the cursor ends at
the length of the buffer. -/
theorem nested_encaps_roundtrip (bld : Build) (hc : bld.coherent) (s : BasicStream)
    (ps : List (List Ice.Byte)) (hempty : s.b = [])
    (hroom : encodedSize ps ≤ s.messageSizeMax) (hsz : encodedSize ps ≤ 2147483647) :
    ∃ s1, writeNested bld ps s = .ok () s1 ∧
      ∃ s2, readNested bld (ps.map List.length) { s1 with i := 0 } =
          .ok (ps.map fun p => (p, some (bld.encodingMajor, bld.encodingMinor))) s2 ∧
        s2.b = s1.b ∧ s2.i = s2.b.length := by
  obtain ⟨s1, h1, hb1, _⟩ := writeNested_eq bld hc ps s (by rw [hempty]; simpa using hroom) hsz
  rw [hempty, List.nil_append] at hb1
  obtain ⟨s2, h2, hi2, hb2, _⟩ := readNested_eq bld hc ps { s1 with i := 0 } []
    (by simp [hb1]) hsz
  refine ⟨s1, h1, s2, h2, hb2, ?_⟩
  rw [hi2, hb2]
  simp [hb1, nestedEncaps_length]

/-- Witness for C12: three nested encapsulations with the payloads `AA`, none
and `BB CC`, written to an empty stream and read back. -/
theorem nested_encaps_roundtrip_witness :
    littleEndianBuild.coherent ∧
    ∃ s1, writeNested littleEndianBuild [[170], [], [187, 204]] (init littleEndianBuild 64)
        = .ok () s1 ∧
      ∃ s2, readNested littleEndianBuild
          (([[170], [], [187, 204]] : List (List Ice.Byte)).map List.length) { s1 with i := 0 } =
          .ok (([[170], [], [187, 204]] : List (List Ice.Byte)).map fun p =>
            (p, some (littleEndianBuild.encodingMajor, littleEndianBuild.encodingMinor))) s2 ∧
        s2.b = s1.b ∧ s2.i = s2.b.length :=
  ⟨by decide,
    nested_encaps_roundtrip littleEndianBuild (by decide) (init littleEndianBuild 64)
      [[170], [], [187, 204]] rfl (by decide) (by decide)⟩

/-! ## The frame stacks -/

theorem startReadEncaps_cases (bld : Build) (s : BasicStream) :
    ∃ (fr : ReadEncaps) (k : Nat),
      (startReadEncaps bld s).state? =
        some { s with currentReadEncaps := fr :: s.currentReadEncaps, i := s.i + k } ∧
      fr.start = s.i ∧ (s.i ≤ s.b.length → s.i + k ≤ s.b.length) ∧
      (∀ s1, startReadEncaps bld s = .ok () s1 →
        0 ≤ fr.sz ∧ (s.i : Int) + fr.sz ≤ (s.b.length : Int) ∧ k = 6 ∧
          s.i + 6 ≤ s.b.length) := by
  obtain ⟨fr, hfr, hpush⟩ := pushReadEncaps_eq bld s
  unfold startReadEncaps
  rw [hpush]
  by_cases h4 : (s.b.length : Int) - (s.i : Int) < 4
  · have hr : read_Int bld { s with currentReadEncaps := fr :: s.currentReadEncaps } =
        .raised .UnmarshalOutOfBoundsException
          { s with currentReadEncaps := fr :: s.currentReadEncaps } := by
      unfold read_Int
      rw [if_pos h4]
    rw [hr]
    refine ⟨fr, 0, rfl, hfr, fun h => by omega, ?_⟩
    intro s1 h
    cases h
  · obtain ⟨x0, x1, x2, x3, rest4, hx⟩ := exists_four_of_length (s.b.drop s.i)
      (by rw [List.length_drop]; omega)
    have hlen := drop_cons_lt hx
    simp only [List.length_cons] at hlen
    have hx4 : s.b.drop (s.i + 4) = rest4 :=
      drop_succ_of_drop (drop_succ_of_drop (drop_succ_of_drop (drop_succ_of_drop hx)))
    rw [read_Int_drop bld { s with currentReadEncaps := fr :: s.currentReadEncaps }
      x0 x1 x2 x3 rest4 hx]
    simp only [Outcome.andThen]
    generalize bld.load (copyIn bld x0 x1 x2 x3) = sz
    by_cases hneg : sz < 0
    · rw [if_pos hneg]
      exact ⟨fr, 4, rfl, hfr, fun _ => by omega, fun s1 h => by cases h⟩
    · rw [if_neg hneg]
      by_cases hoob : ((s.i + 4 : Nat) : Int) - 4 + sz > (s.b.length : Int)
      · rw [if_pos hoob]
        exact ⟨fr, 4, rfl, hfr, fun _ => by omega, fun s1 h => by cases h⟩
      · rw [if_neg hoob]
        simp only [setCurrentReadEncaps]
        cases rest4 with
        | nil =>
          have hr : read_Byte
              { s with
                currentReadEncaps := { fr with sz := sz } :: s.currentReadEncaps,
                i := s.i + 4 } =
              .raised .UnmarshalOutOfBoundsException
                { s with
                  currentReadEncaps := { fr with sz := sz } :: s.currentReadEncaps,
                  i := s.i + 4 } := by
            unfold read_Byte
            rw [if_pos (by simp only [List.length_nil] at hlen ⊢; omega)]
          rw [hr]
          exact ⟨{ fr with sz := sz }, 4, rfl, hfr, fun _ => by omega, fun s1 h => by cases h⟩
        | cons major rest5 =>
          rw [read_Byte_drop
            { s with
              currentReadEncaps := { fr with sz := sz } :: s.currentReadEncaps,
              i := s.i + 4 } major rest5 hx4]
          simp only []
          have hx5 : s.b.drop (s.i + 4 + 1) = rest5 := drop_succ_of_drop hx4
          simp only [List.length_cons] at hlen
          cases rest5 with
          | nil =>
            have hr : read_Byte
                { s with
                  currentReadEncaps := { fr with sz := sz } :: s.currentReadEncaps,
                  i := s.i + 4 + 1 } =
                .raised .UnmarshalOutOfBoundsException
                  { s with
                    currentReadEncaps := { fr with sz := sz } :: s.currentReadEncaps,
                    i := s.i + 4 + 1 } := by
              unfold read_Byte
              rw [if_pos (by simp only [List.length_nil] at hlen ⊢; omega)]
            rw [hr]
            exact ⟨{ fr with sz := sz }, 4 + 1, rfl, hfr, fun _ => by omega,
              fun s1 h => by cases h⟩
          | cons minor rest6 =>
            rw [read_Byte_drop
              { s with
                currentReadEncaps := { fr with sz := sz } :: s.currentReadEncaps,
                i := s.i + 4 + 1 } minor rest6 hx5]
            simp only []
            simp only [List.length_cons] at hlen
            by_cases hver : major ≠ bld.encodingMajor ∨ minor.val > bld.encodingMinor.val
            · rw [if_pos hver]
              exact ⟨{ fr with sz := sz }, 4 + 1 + 1, rfl, hfr, fun _ => by omega,
                fun s1 h => by cases h⟩
            · rw [if_neg hver]
              refine ⟨{ fr with sz := sz, encodingMajor := major, encodingMinor := minor },
                4 + 1 + 1, rfl, hfr, fun _ => by omega, fun s1 _ => ?_⟩
              push_cast at hoob
              exact ⟨by simp only []; omega, by simp only []; omega, rfl, by omega⟩

theorem startWriteEncaps_ok_inv (bld : Build) (s s1 : BasicStream)
    (h : startWriteEncaps bld s = .ok () s1) :
    s1 = { pushWriteEncaps s with
      b := s.b ++ copyOut bld (bld.store 0) ++ [bld.encodingMajor] ++ [bld.encodingMinor] } := by
  rw [startWriteEncaps_eq] at h
  split at h
  · cases h
  · injection h with _ hs
    exact hs.symm

theorem endWriteEncaps_frames (bld : Build) (s s1 : BasicStream) (cur : WriteEncaps)
    (previous : List WriteEncaps) (hframes : s.currentWriteEncaps = cur :: previous)
    (h : endWriteEncaps bld s = .ok () s1) : s1.currentWriteEncaps = previous := by
  unfold endWriteEncaps at h
  rw [hframes] at h
  simp only [] at h
  split at h
  · cases previous with
    | nil =>
      injection h with _ hs
      rw [← hs]
    | cons q qs =>
      injection h with _ hs
      rw [← hs]
  · cases h

theorem endReadEncaps_frames (bld : Build) (s s1 : BasicStream) (cur : ReadEncaps)
    (previous : List ReadEncaps) (hframes : s.currentReadEncaps = cur :: previous)
    (h : endReadEncaps bld s = .ok () s1) : s1.currentReadEncaps = previous := by
  unfold endReadEncaps at h
  rw [hframes] at h
  simp only [] at h
  split at h
  · cases h
  · cases previous with
    | nil =>
      injection h with _ hs
      rw [← hs]
    | cons q qs =>
      injection h with _ hs
      rw [← hs]

/-- C13. Encapsulation frames are a LIFO stack, on the write side and on the
read side and at every depth.  A successful start makes a new frame current,
whose `start` is the offset at which it was opened and whose chain of previous
frames is the chain that was current before.  The matching end, that is the end
applied while that frame is current, makes the previous frame current again, so
that the stack (current frame and all ancestors) is exactly what it was before
the start; when there was no frame before the start, none is current after the
end.  The end applied right after the start returns. -/
theorem encaps_frames_lifo (bld : Build) (s s1 : BasicStream) :
    (startWriteEncaps bld s = .ok () s1 →
      (∃ cur, s1.currentWriteEncaps = cur :: s.currentWriteEncaps ∧ cur.start = s.b.length) ∧
      (∃ s3, endWriteEncaps bld s1 = .ok () s3 ∧
        s3.currentWriteEncaps = s.currentWriteEncaps) ∧
      (∀ s2 s3, s2.currentWriteEncaps = s1.currentWriteEncaps →
        endWriteEncaps bld s2 = .ok () s3 →
          s3.currentWriteEncaps = s.currentWriteEncaps ∧
          (s.currentWriteEncaps = [] → s3.currentWriteEncaps = []))) ∧
    (startReadEncaps bld s = .ok () s1 →
      (∃ cur, s1.currentReadEncaps = cur :: s.currentReadEncaps ∧ cur.start = s.i) ∧
      (∃ s3, endReadEncaps bld s1 = .ok () s3 ∧
        s3.currentReadEncaps = s.currentReadEncaps) ∧
      (∀ s2 s3, s2.currentReadEncaps = s1.currentReadEncaps →
        endReadEncaps bld s2 = .ok () s3 →
          s3.currentReadEncaps = s.currentReadEncaps ∧
          (s.currentReadEncaps = [] → s3.currentReadEncaps = []))) := by
  constructor
  · intro hstart
    have hs1 := startWriteEncaps_ok_inv bld s s1 hstart
    obtain ⟨cur, hcur, hcs⟩ := pushWriteEncaps_frames s
    have hf1 : s1.currentWriteEncaps = cur :: s.currentWriteEncaps := by rw [hs1]; exact hcur
    refine ⟨⟨cur, hf1, hcs⟩, ?_, ?_⟩
    · obtain ⟨s3, h3, _, hf3, _⟩ := endWriteEncaps_patch bld s1 cur s.currentWriteEncaps s.b
        (copyOut bld (bld.store 0)) ([bld.encodingMajor] ++ [bld.encodingMinor]) hf1 hcs
        (by rw [hs1]; simp) (copyOut_length _ _)
      exact ⟨s3, h3, hf3⟩
    · intro s2 s3 h2 h3
      have := endWriteEncaps_frames bld s2 s3 cur s.currentWriteEncaps (by rw [h2, hf1]) h3
      exact ⟨this, fun h => by rw [this, h]⟩
  · intro hstart
    obtain ⟨fr, k, hst, hfs, _, hok⟩ := startReadEncaps_cases bld s
    obtain ⟨hsz, _, _, _⟩ := hok s1 hstart
    rw [hstart] at hst
    simp only [Outcome.state?, Option.some.injEq] at hst
    have hf1 : s1.currentReadEncaps = fr :: s.currentReadEncaps := by rw [hst]
    refine ⟨⟨fr, hf1, hfs⟩, ?_, ?_⟩
    · obtain ⟨s3, h3, _, hf3, _⟩ := endReadEncaps_of_frames bld s1 fr s.currentReadEncaps hf1
        (by omega)
      exact ⟨s3, h3, hf3⟩
    · intro s2 s3 h2 h3
      have := endReadEncaps_frames bld s2 s3 fr s.currentReadEncaps (by rw [h2, hf1]) h3
      exact ⟨this, fun h => by rw [this, h]⟩

/-- Witness for C13: the outermost write encapsulation of a new stream is
closed right after it was opened, and no frame is current afterwards. -/
theorem encaps_frames_lifo_witness :
    ∃ s3, endWriteEncaps littleEndianBuild
        { pushWriteEncaps (init littleEndianBuild 64) with b := [0, 0, 0, 0, 1, 0] } = .ok () s3 ∧
      s3.currentWriteEncaps = (init littleEndianBuild 64).currentWriteEncaps :=
  ((encaps_frames_lifo littleEndianBuild (init littleEndianBuild 64)
      { pushWriteEncaps (init littleEndianBuild 64) with b := [0, 0, 0, 0, 1, 0] }).1
    (by rw [startWriteEncaps_eq, if_neg (by decide)]; rfl)).2.1

/-! ## Strings -/

theorem readSize_one_byte (bld : Build) (s : BasicStream) (x : Ice.Byte)
    (rest : List Ice.Byte) (hdrop : s.b.drop s.i = x :: rest) (hx : x.val ≠ 255) :
    readSize bld s = .ok (x.val : Int) { s with i := s.i + 1 } := by
  unfold readSize
  rw [read_Byte_drop s x rest hdrop]
  simp only [Outcome.andThen]
  rw [if_neg hx]

theorem readSize_five_bytes (bld : Build) (s : BasicStream) (x0 x1 x2 x3 : Ice.Byte)
    (rest : List Ice.Byte) (hdrop : s.b.drop s.i = 255 :: x0 :: x1 :: x2 :: x3 :: rest) :
    readSize bld s =
      if bld.load (copyIn bld x0 x1 x2 x3) < 0 then
        .raised .NegativeSizeException { s with i := s.i + 1 + 4 }
      else .ok (bld.load (copyIn bld x0 x1 x2 x3)) { s with i := s.i + 1 + 4 } := by
  unfold readSize
  rw [read_Byte_drop s 255 _ hdrop]
  simp only [Outcome.andThen]
  rw [if_pos (by rfl), read_Int_drop bld { s with i := s.i + 1 } x0 x1 x2 x3 rest
    (drop_succ_of_drop hdrop)]

theorem writeSize_readSize (bld : Build) (s : BasicStream) (v : Int) (h0 : 0 ≤ v)
    (h1 : v ≤ 2147483647) (hroom : s.b.length + (if v ≤ 254 then 1 else 5) ≤ s.messageSizeMax) :
    ∃ enc : List Ice.Byte, enc.length = (if v ≤ 254 then 1 else 5) ∧
      writeSize bld v s = .ok () { s with b := s.b ++ enc } ∧
      ∀ (t : BasicStream) (rest : List Ice.Byte), t.b.drop t.i = enc ++ rest →
        readSize bld t = .ok v { t with i := t.i + enc.length } := by
  by_cases hv : v ≤ 254
  · refine ⟨[toByte (pattern32 v)], by simp [hv], writeSize_small bld s v h0 hv, ?_⟩
    intro t rest hdrop
    have hval := toByte_pattern32_val v h0 (by omega)
    have hne : (toByte (pattern32 v)).val ≠ 255 := by
      intro h; rw [h] at hval; omega
    rw [readSize_one_byte bld t _ rest hdrop hne, hval]
    rfl
  · simp only [hv, if_false] at hroom
    obtain ⟨x0, x1, x2, x3, hx⟩ := copyOut_cases bld (bld.store v)
    refine ⟨[255, x0, x1, x2, x3], by simp [hv], ?_, ?_⟩
    · rw [writeSize_large bld s v (by omega), if_neg (by omega), hx]
    · intro t rest hdrop
      rw [readSize_five_bytes bld t x0 x1 x2 x3 rest hdrop,
        load_copyIn_copyOut_store bld v (by omega) h1 x0 x1 x2 x3 hx, if_neg (by omega)]
      rfl

theorem read_string_of_readSize (bld : Build) (s s1 : BasicStream) (n : Int)
    (h : readSize bld s = .ok n s1) :
    read_string bld s =
      if n > 0 then
        if (s1.b.length : Int) - (s1.i : Int) < n then .raised .UnmarshalOutOfBoundsException s1
        else .ok ((s1.b.drop s1.i).take n.toNat) { s1 with i := s1.i + n.toNat }
      else .ok [] s1 := by
  unfold read_string
  rw [h]
  rfl

/-- C14. String round trip: for a byte string `v` of at most `2^31 - 1` bytes
(the empty string and the lengths 254 and 255 included) that fits the maximum
message size together with its size prefix, `write(v)` returns and has appended
exactly what `writeSize(|v|)` appends, 1 byte up to length 254 and 5 beyond,
followed by the bytes of `v`; `read(string)` started at the offset where the
write began returns exactly `v` and leaves the cursor at the end of the
buffer. -/
theorem string_roundtrip (bld : Build) (s : BasicStream) (v : List Ice.Byte)
    (hlen : v.length ≤ 2147483647)
    (hroom : s.b.length + (if v.length ≤ 254 then 1 else 5) + v.length ≤ s.messageSizeMax) :
    ∃ (enc : List Ice.Byte) (s1 s2 : BasicStream),
      writeSize bld (v.length : Int) s = .ok () { s with b := s.b ++ enc } ∧
      enc.length = (if v.length ≤ 254 then 1 else 5) ∧
      write_string bld v s = .ok () s1 ∧ s1.b = s.b ++ enc ++ v ∧
      read_string bld { s1 with i := s.b.length } = .ok v s2 ∧
      s2.i = s1.b.length ∧ s2.b = s1.b := by
  have hif : (if (v.length : Int) ≤ 254 then 1 else 5) = (if v.length ≤ 254 then 1 else 5) := by
    by_cases h : v.length ≤ 254
    · rw [if_pos h, if_pos (by omega)]
    · rw [if_neg h, if_neg (by omega)]
  obtain ⟨enc, henc, hw, hr⟩ := writeSize_readSize bld s (v.length : Int) (by omega) (by omega)
    (by rw [hif]; omega)
  rw [hif] at henc
  have hws : write_string bld v s = .ok () { s with b := s.b ++ enc ++ v } := by
    rw [write_string_eq bld v s hlen, hw]
    simp only [Outcome.andThen]
    by_cases hz : v.length = 0
    · rw [if_pos hz]
      have : v = [] := List.length_eq_zero.mp hz
      subst this
      simp
    · rw [if_neg hz, if_neg (by simp only [List.length_append]; omega)]
  have hrs := hr { s with b := s.b ++ enc ++ v, i := s.b.length } v (by simp)
  have hread : read_string bld { s with b := s.b ++ enc ++ v, i := s.b.length } =
      .ok v { s with b := s.b ++ enc ++ v, i := s.b.length + enc.length + v.length } := by
    rw [read_string_of_readSize bld _ _ _ hrs]
    simp only []
    by_cases hz : v.length = 0
    · have : v = [] := List.length_eq_zero.mp hz
      subst this
      simp
    · rw [if_pos (by omega), if_neg (by simp only [List.length_append]; push_cast; omega)]
      have htake : (List.drop (s.b.length + enc.length) (s.b ++ enc ++ v)).take
          ((v.length : Int)).toNat = v := by
        have : s.b.length + enc.length = (s.b ++ enc).length := by simp
        rw [this, List.drop_left]
        simp
      rw [htake]
      simp
  exact ⟨enc, _, _, hw, henc, hws, rfl, hread, by simp [Nat.add_assoc], rfl⟩

/-- Witness for C14: the two-byte string `68 69` on a new stream. -/
theorem string_roundtrip_witness :
    ∃ (enc : List Ice.Byte) (s1 s2 : BasicStream),
      writeSize bigEndianBuild (([104, 105] : List Ice.Byte).length : Int)
        (init bigEndianBuild 16) =
        .ok () { init bigEndianBuild 16 with b := (init bigEndianBuild 16).b ++ enc } ∧
      enc.length = (if ([104, 105] : List Ice.Byte).length ≤ 254 then 1 else 5) ∧
      write_string bigEndianBuild [104, 105] (init bigEndianBuild 16) = .ok () s1 ∧
      s1.b = (init bigEndianBuild 16).b ++ enc ++ [104, 105] ∧
      read_string bigEndianBuild { s1 with i := (init bigEndianBuild 16).b.length } =
        .ok [104, 105] s2 ∧
      s2.i = s1.b.length ∧ s2.b = s1.b :=
  string_roundtrip bigEndianBuild (init bigEndianBuild 16) [104, 105] (by decide) (by decide)

theorem readSize_ok_inv (bld : Build) (s s1 : BasicStream) (n : Int)
    (h : readSize bld s = .ok n s1) :
    (∃ (x : Ice.Byte) (rest : List Ice.Byte), s.b.drop s.i = x :: rest ∧ x.val ≠ 255 ∧
      n = (x.val : Int) ∧ s1 = { s with i := s.i + 1 }) ∨
    (∃ (x0 x1 x2 x3 : Ice.Byte) (rest : List Ice.Byte),
      s.b.drop s.i = 255 :: x0 :: x1 :: x2 :: x3 :: rest ∧
      n = bld.load (copyIn bld x0 x1 x2 x3) ∧ 0 ≤ n ∧ s1 = { s with i := s.i + 1 + 4 }) := by
  by_cases hge : s.i ≥ s.b.length
  · unfold readSize read_Byte at h
    rw [if_pos hge] at h
    cases h
  · obtain ⟨x, rest, hx⟩ := exists_cons_of_length_pos (s.b.drop s.i)
      (by rw [List.length_drop]; omega)
    by_cases h255 : x.val = 255
    · have hx255 : x = 255 := Fin.ext h255
      subst hx255
      have hlen := drop_cons_lt hx
      by_cases h4 : rest.length < 4
      · unfold readSize at h
        rw [read_Byte_drop s 255 rest hx] at h
        simp only [Outcome.andThen] at h
        rw [if_pos (by rfl)] at h
        unfold read_Int at h
        rw [if_pos (by simp only []; push_cast; omega)] at h
        cases h
      · obtain ⟨x0, x1, x2, x3, rest4, hr⟩ := exists_four_of_length rest (by omega)
        subst hr
        rw [readSize_five_bytes bld s x0 x1 x2 x3 rest4 hx] at h
        split at h
        · cases h
        · next hneg =>
          injection h with hn hs
          exact Or.inr ⟨x0, x1, x2, x3, rest4, hx, hn.symm, by omega, hs.symm⟩
    · rw [readSize_one_byte bld s x rest hx h255] at h
      injection h with hn hs
      exact Or.inl ⟨x, rest, hx, h255, hn.symm, hs.symm⟩

/-- C15. Bounds check of the string read.  In a state in which `readSize` at the
cursor succeeds with the length `n` and leaves the cursor just after the size
prefix, `read(string)` fails with `UnmarshalOutOfBoundsException` if and only if
`n` exceeds the number of bytes that remain after the prefix; otherwise it
returns exactly the `n` bytes that follow the prefix (the empty string when
`n = 0`) and moves the cursor by exactly `n` past the prefix, which keeps it
within the buffer. -/
theorem read_string_bounds_checked (bld : Build) (s s1 : BasicStream) (n : Int)
    (hsize : readSize bld s = .ok n s1) :
    0 ≤ n ∧ s1.i ≤ s1.b.length ∧
    ((∃ s2, read_string bld s = .raised .UnmarshalOutOfBoundsException s2) ↔
      n > (s1.b.length : Int) - (s1.i : Int)) ∧
    (n ≤ (s1.b.length : Int) - (s1.i : Int) →
      read_string bld s =
        .ok ((s1.b.drop s1.i).take n.toNat) { s1 with i := s1.i + n.toNat } ∧
      (((s1.b.drop s1.i).take n.toNat).length : Int) = n ∧
      (n = 0 → (s1.b.drop s1.i).take n.toNat = []) ∧
      s1.i + n.toNat ≤ s1.b.length) := by
  have hinv : 0 ≤ n ∧ s1.i ≤ s1.b.length := by
    rcases readSize_ok_inv bld s s1 n hsize with
      ⟨x, rest, hx, _, hn, hs⟩ | ⟨x0, x1, x2, x3, rest, hx, _, hn, hs⟩
    · have := drop_cons_lt hx
      rw [hs, hn]
      simp only []
      omega
    · have := drop_cons_lt hx
      simp only [List.length_cons] at this
      rw [hs]
      simp only []
      omega
  obtain ⟨hn, hi⟩ := hinv
  have hrs := read_string_of_readSize bld s s1 n hsize
  refine ⟨hn, hi, ⟨?_, ?_⟩, ?_⟩
  · rintro ⟨s2, h2⟩
    by_contra hle
    rw [hrs] at h2
    by_cases hpos : n > 0
    · rw [if_pos hpos, if_neg (by omega)] at h2
      cases h2
    · rw [if_neg hpos] at h2
      cases h2
  · intro hgt
    refine ⟨s1, ?_⟩
    rw [hrs, if_pos (by omega), if_pos (by omega)]
  · intro hle
    have hlen : (((s1.b.drop s1.i).take n.toNat).length : Int) = n := by
      rw [List.length_take, List.length_drop]
      omega
    refine ⟨?_, hlen, ?_, by omega⟩
    · rw [hrs]
      by_cases hpos : n > 0
      · rw [if_pos hpos, if_neg (by omega)]
      · have hz : n = 0 := by omega
        subst hz
        rw [if_neg hpos]
        simp
    · intro hz
      subst hz
      simp

/-- Witness for C15: a size prefix of 3 followed by only two bytes is refused. -/
theorem read_string_bounds_checked_witness :
    ∃ s2, read_string littleEndianBuild (holding littleEndianBuild 64 [3, 104, 105] 0) =
      .raised .UnmarshalOutOfBoundsException s2 :=
  (read_string_bounds_checked littleEndianBuild (holding littleEndianBuild 64 [3, 104, 105] 0)
    { holding littleEndianBuild 64 [3, 104, 105] 0 with i := 1 } 3 (by rfl)).2.2.1.2
    (by decide)

/-! ## The cursor stays within the buffer -/

theorem trackFrames_plain (op : ReadOp) (hop : op.framing = false) (r : Outcome Unit)
    (opened : List Bool) : trackFrames op r opened = opened := by
  cases op <;> first | rfl | simp [ReadOp.framing] at hop

theorem framesWithin_step (bld : Build) (op : ReadOp) (s : BasicStream) (opened : List Bool)
    (hinv : FramesWithin s opened)
    (hadm : ¬ (op = .endEncaps ∧ opened.head? ≠ some true)) :
    ∃ s1, (op.call bld s).state? = some s1 ∧
      FramesWithin s1 (trackFrames op (op.call bld s) opened) := by
  obtain ⟨hi, hfr⟩ := hinv
  by_cases hplain : op.framing = false
  · obtain ⟨k, hk, hle⟩ := advances_call bld op hplain s hi
    refine ⟨_, hk, ?_⟩
    rw [trackFrames_plain op hplain]
    exact ⟨hle, hfr⟩
  · cases op with
    | startEncaps =>
      obtain ⟨fr, k, hst, hfs, hle, hok⟩ := startReadEncaps_cases bld s
      refine ⟨_, hst, ?_⟩
      simp only [ReadOp.call] at hst ⊢
      cases hcall : startReadEncaps bld s with
      | ok u s1 =>
        obtain ⟨h0, h1, _, _⟩ := hok s1 hcall
        refine ⟨hle hi, ?_⟩
        simp only [trackFrames]
        exact List.Forall₂.cons (fun _ => ⟨h0, by rw [hfs]; exact h1⟩) hfr
      | raised e s1 =>
        refine ⟨hle hi, ?_⟩
        simp only [trackFrames]
        exact List.Forall₂.cons (fun h => by cases h) hfr
      | assertFailed => rw [hcall] at hst; cases hst
      | undefined => rw [hcall] at hst; cases hst
    | endEncaps =>
      have hhead : opened.head? = some true := by
        by_contra h
        exact hadm ⟨rfl, h⟩
      cases opened with
      | nil => simp at hhead
      | cons ok oks =>
        rw [List.forall₂_cons_right_iff] at hfr
        obtain ⟨fr, frs, hsound, hrest, hframes⟩ := hfr
        simp only [List.head?_cons, Option.some.injEq] at hhead
        obtain ⟨h0, h1⟩ := hsound hhead
        obtain ⟨s1, h1r, hi1, hf1, hb1, _⟩ := endReadEncaps_of_frames bld s fr frs
          hframes (by omega)
        refine ⟨s1, ?_, ?_⟩
        · simp only [ReadOp.call, h1r, Outcome.state?]
        · simp only [ReadOp.call, h1r, trackFrames, List.tail_cons]
          refine ⟨by rw [hb1]; omega, ?_⟩
          rw [hf1, hb1]
          exact hrest
    | byte => simp [ReadOp.framing] at hplain
    | bool => simp [ReadOp.framing] at hplain
    | int => simp [ReadOp.framing] at hplain
    | size => simp [ReadOp.framing] at hplain
    | string => simp [ReadOp.framing] at hplain
    | blob sz => simp [ReadOp.framing] at hplain

theorem framesWithin_runTracked (bld : Build) (ops : List ReadOp) (s : BasicStream)
    (opened : List Bool) (hinv : FramesWithin s opened) :
    runTracked bld ops s opened ≠ .stuck ∧
    ∀ s1 opened1, runTracked bld ops s opened = .reached s1 opened1 →
      FramesWithin s1 opened1 := by
  induction ops generalizing s opened with
  | nil =>
    refine ⟨by simp [runTracked], ?_⟩
    intro s1 opened1 h
    simp only [runTracked, Tracked.reached.injEq] at h
    obtain ⟨h1, h2⟩ := h
    subst h1 h2
    exact hinv
  | cons op ops ih =>
    unfold runTracked
    by_cases hadm : op = .endEncaps ∧ opened.head? ≠ some true
    · rw [if_pos hadm]
      exact ⟨by simp, fun s1 opened1 h => by cases h⟩
    · rw [if_neg hadm]
      obtain ⟨s1, hs1, hinv1⟩ := framesWithin_step bld op s opened hinv hadm
      rw [hs1]
      exact ih s1 _ hinv1

/-- C16 fails as stated.  The buffer holds an encapsulation of declared size 6
followed by the four bytes `FF FF FF FF`; the cursor is at 0 and no read frame
is open.  `startReadEncaps` and `endReadEncaps` succeed and leave the cursor at
6.  The second `startReadEncaps` reads the size -1 and throws
`NegativeSizeException` after it has made the pre-allocated frame current and
before it assigns `sz`, which still holds the 6 of the first encapsulation.  A
read frame is open, and `endReadEncaps` moves the cursor to `6 + 6 = 12`, beyond
the 10 bytes of the buffer. -/
theorem cursor_escapes_counterexample :
    (holding littleEndianBuild 64 [6, 0, 0, 0, 1, 0, 255, 255, 255, 255] 0).i = 0 ∧
    (holding littleEndianBuild 64 [6, 0, 0, 0, 1, 0, 255, 255, 255, 255] 0).currentReadEncaps
      = [] ∧
    (∃ s3, startReadEncaps littleEndianBuild
        { holding littleEndianBuild 64 [6, 0, 0, 0, 1, 0, 255, 255, 255, 255] 0 with
          i := 6,
          preAllocatedReadEncaps :=
            { start := 0, sz := 6, encodingMajor := 1, encodingMinor := 0 } } =
      .raised .NegativeSizeException s3) ∧
    (runKeep littleEndianBuild [.startEncaps, .endEncaps, .startEncaps]
        (holding littleEndianBuild 64 [6, 0, 0, 0, 1, 0, 255, 255, 255, 255] 0)).map
      (fun s => s.currentReadEncaps)
      = some [{ start := 6, sz := 6, encodingMajor := 1, encodingMinor := 0 }] ∧
    (runKeep littleEndianBuild [.startEncaps, .endEncaps, .startEncaps, .endEncaps]
        (holding littleEndianBuild 64 [6, 0, 0, 0, 1, 0, 255, 255, 255, 255] 0)).map
      (fun s => (s.i, s.b.length)) = some (12, 10) ∧
    ¬ (∀ s1, runKeep littleEndianBuild [.startEncaps, .endEncaps, .startEncaps, .endEncaps]
        (holding littleEndianBuild 64 [6, 0, 0, 0, 1, 0, 255, 255, 255, 255] 0) = some s1 →
      s1.i ≤ s1.b.length) := by
  have hrun : (runKeep littleEndianBuild [.startEncaps, .endEncaps, .startEncaps, .endEncaps]
      (holding littleEndianBuild 64 [6, 0, 0, 0, 1, 0, 255, 255, 255, 255] 0)).map
      (fun s => (s.i, s.b.length)) = some (12, 10) := by rfl
  refine ⟨rfl, rfl, ⟨_, by rfl⟩, by rfl, hrun, ?_⟩
  intro h
  cases hk : runKeep littleEndianBuild [.startEncaps, .endEncaps, .startEncaps, .endEncaps]
      (holding littleEndianBuild 64 [6, 0, 0, 0, 1, 0, 255, 255, 255, 255] 0) with
  | none => rw [hk] at hrun; cases hrun
  | some s1 =>
    have hle := h s1 hk
    rw [hk] at hrun
    simp only [Option.map_some', Option.some.injEq, Prod.mk.injEq] at hrun
    omega

/-- C16, amended.  From a stream with the cursor at 0 and no read frame open,
take any finite sequence of the read operations of the header (read of a byte,
a bool, a 32-bit integer, `readSize`, read of a string, `readBlob`,
`startReadEncaps`, `endReadEncaps`), carrying on after every exception from the
state it left, in which `endReadEncaps` is applied only while the current frame
is one that a successful `startReadEncaps` opened.  No operation of the sequence
fails an assertion or has undefined behaviour, and at the end the cursor is at
most the length of the buffer. -/
theorem cursor_within_buffer (bld : Build) (s : BasicStream) (hi : s.i = 0)
    (hf : s.currentReadEncaps = []) (ops : List ReadOp) :
    runTracked bld ops s [] ≠ .stuck ∧
    ∀ s1 opened, runTracked bld ops s [] = .reached s1 opened → s1.i ≤ s1.b.length := by
  have hinv : FramesWithin s [] := by
    refine ⟨by omega, ?_⟩
    rw [hf]
    exact List.Forall₂.nil
  obtain ⟨hstuck, hreach⟩ := framesWithin_runTracked bld ops s [] hinv
  exact ⟨hstuck, fun s1 opened h => (hreach s1 opened h).1⟩

/-- Witness for the amended C16: on the stream of the counterexample, the
sequence that closes the first encapsulation, fails to open a second one and
fails to read an integer ends with the cursor within the buffer. -/
theorem cursor_within_buffer_witness :
    (holding littleEndianBuild 64 [6, 0, 0, 0, 1, 0, 255, 255, 255, 255] 0).i = 0 ∧
    (holding littleEndianBuild 64 [6, 0, 0, 0, 1, 0, 255, 255, 255, 255] 0).currentReadEncaps
      = [] ∧
    ∃ s1 opened,
      runTracked littleEndianBuild [.startEncaps, .byte, .endEncaps, .startEncaps, .int]
        (holding littleEndianBuild 64 [6, 0, 0, 0, 1, 0, 255, 255, 255, 255] 0) []
        = .reached s1 opened ∧
      opened = [false] ∧ s1.i ≤ s1.b.length :=
  ⟨rfl, rfl, _, _, rfl, rfl,
    (cursor_within_buffer littleEndianBuild
      (holding littleEndianBuild 64 [6, 0, 0, 0, 1, 0, 255, 255, 255, 255] 0) rfl rfl
      [.startEncaps, .byte, .endEncaps, .startEncaps, .int]).2 _ _ rfl⟩

/-! ## Sizes that are not written as they are read -/

/-- C17 fails as stated.  For `v = -2` the claim has `writeSize` append
`FF FE FF FF FF`.  The function starts with `assert(v >= 0)`: the build with
assertions stops there and appends nothing; the build with `NDEBUG` finds
`v > 254` false and appends the single byte `FE`. -/
theorem writeSize_negative_counterexample :
    writeSize littleEndianBuild (-2) (init littleEndianBuild 64) = .assertFailed ∧
    writeSize bigEndianBuild (-2) (init bigEndianBuild 64) =
      .ok () { init bigEndianBuild 64 with b := [254] } ∧
    littleEndian (-2) = [254, 255, 255, 255] ∧
    writeSize bigEndianBuild (-2) (init bigEndianBuild 64) ≠
      .ok () { init bigEndianBuild 64 with b := 255 :: littleEndian (-2) } := by
  refine ⟨rfl, rfl, rfl, ?_⟩
  intro h
  have h1 : writeSize bigEndianBuild (-2) (init bigEndianBuild 64) =
      .ok () { init bigEndianBuild 64 with b := [254] } := rfl
  rw [h1] at h
  injection h with _ hs
  have hb := congrArg BasicStream.b hs
  revert hb
  decide

/-- C17, amended.  A negative `v` violates the precondition `assert(v >= 0)` of
`writeSize`.  In a build with assertions the call fails the assertion and
appends nothing.  In a build with `NDEBUG` it takes the branch of the values up
to 254 and appends one byte, `v` modulo 256.  The five-byte form is written for
`v > 254` only. -/
theorem writeSize_negative (bld : Build) (s : BasicStream) (v : Int) (hv : v < 0) :
    (bld.NDEBUG = false → writeSize bld v s = .assertFailed) ∧
    (bld.NDEBUG = true →
      ∃ x : Ice.Byte, (x.val : Int) = v % 256 ∧
        writeSize bld v s = .ok () { s with b := s.b ++ [x] }) := by
  constructor
  · intro hn
    unfold writeSize
    rw [if_pos ⟨by simp [hn], by omega⟩]
  · intro hn
    refine ⟨toByte (pattern32 v), by simp only [toByte, pattern32]; omega, ?_⟩
    unfold writeSize
    rw [if_neg (fun h => h.1 hn), if_neg (by omega)]
    rfl

/-- Witness for the amended C17: `writeSize(-1)` in the two sample builds. -/
theorem writeSize_negative_witness :
    ((-1 : Int) < 0) ∧
    writeSize littleEndianBuild (-1) (init littleEndianBuild 64) = .assertFailed ∧
    ∃ x : Ice.Byte, (x.val : Int) = (-1 : Int) % 256 ∧
      writeSize bigEndianBuild (-1) (init bigEndianBuild 64) =
        .ok () { init bigEndianBuild 64 with b := (init bigEndianBuild 64).b ++ [x] } :=
  ⟨by decide,
    (writeSize_negative littleEndianBuild (init littleEndianBuild 64) (-1) (by decide)).1 rfl,
    (writeSize_negative bigEndianBuild (init bigEndianBuild 64) (-1) (by decide)).2 rfl⟩

/-- C18 against the code.  The six bytes `00 00 00 00 01 00` declare an
encapsulation of size 0, less than its own header.  `startReadEncaps` checks
`sz < 0` and `start + sz` against the end of the buffer, accepts the header and
leaves the cursor at 6; the `endReadEncaps` that follows moves it back to
`start + sz = 0`. -/
theorem endReadEncaps_moves_back :
    ∃ s1 s2,
      startReadEncaps littleEndianBuild (holding littleEndianBuild 64 [0, 0, 0, 0, 1, 0] 0)
        = .ok () s1 ∧
      s1.i = 6 ∧ endReadEncaps littleEndianBuild s1 = .ok () s2 ∧ s2.i = 0 ∧
      ¬ ((holding littleEndianBuild 64 [0, 0, 0, 0, 1, 0] 0).i + 6 ≤ s2.i) :=
  ⟨_, _, rfl, rfl, rfl, rfl, by decide⟩

/-! ## What `endWriteEncaps` changes -/

theorem poke_getElem?_outside (d b : List Ice.Byte) (pos k : Nat)
    (hk : k < pos ∨ pos + d.length ≤ k) : (poke b pos d)[k]? = b[k]? := by
  induction d generalizing b pos with
  | nil => rfl
  | cons x xs ih =>
    simp only [List.length_cons] at hk
    rw [poke, ih (b.set pos x) (pos + 1) (by omega), List.getElem?_set_ne (by omega)]

/-- C19. `endWriteEncaps` touches only the length field: with a write frame open
whose `start` satisfies `start + 4 ≤ length`, it returns, leaves the length of
the buffer and the read cursor unchanged, and leaves every byte at an offset
outside `start .. start + 3` unchanged. -/
theorem endWriteEncaps_touches_only_length (bld : Build) (s : BasicStream)
    (cur : WriteEncaps) (previous : List WriteEncaps)
    (hframes : s.currentWriteEncaps = cur :: previous)
    (hstart : cur.start + 4 ≤ s.b.length) :
    ∃ s1, endWriteEncaps bld s = .ok () s1 ∧ s1.b.length = s.b.length ∧ s1.i = s.i ∧
      ∀ k, (k < cur.start ∨ cur.start + 4 ≤ k) → s1.b[k]? = s.b[k]? := by
  have hout : ∀ (v : Int) (k : Nat), (k < cur.start ∨ cur.start + 4 ≤ k) →
      (poke s.b cur.start (copyOut bld (bld.store v)))[k]? = s.b[k]? := by
    intro v k hk
    exact poke_getElem?_outside _ _ _ _ (by rw [copyOut_length]; exact hk)
  unfold endWriteEncaps
  rw [hframes]
  simp only [if_pos hstart]
  cases previous with
  | nil => exact ⟨_, rfl, poke_length _ _ _, rfl, hout _⟩
  | cons q qs => exact ⟨_, rfl, poke_length _ _ _, rfl, hout _⟩

/-- Witness for C19: the frame opened at offset 1 of a nine-byte buffer. -/
theorem endWriteEncaps_touches_only_length_witness :
    ∃ s1, endWriteEncaps littleEndianBuild
        { holding littleEndianBuild 64 [7, 0, 0, 0, 0, 1, 0, 170, 187] 3 with
          currentWriteEncaps := [{ start := 1, writeIndex := 0 }] } = .ok () s1 ∧
      s1.b.length =
        ({ holding littleEndianBuild 64 [7, 0, 0, 0, 0, 1, 0, 170, 187] 3 with
          currentWriteEncaps := [{ start := 1, writeIndex := 0 }] } : BasicStream).b.length ∧
      s1.i =
        ({ holding littleEndianBuild 64 [7, 0, 0, 0, 0, 1, 0, 170, 187] 3 with
          currentWriteEncaps := [{ start := 1, writeIndex := 0 }] } : BasicStream).i ∧
      ∀ k, (k < ({ start := 1, writeIndex := 0 } : WriteEncaps).start ∨
          ({ start := 1, writeIndex := 0 } : WriteEncaps).start + 4 ≤ k) →
        s1.b[k]? =
          ({ holding littleEndianBuild 64 [7, 0, 0, 0, 0, 1, 0, 170, 187] 3 with
            currentWriteEncaps := [{ start := 1, writeIndex := 0 }] } : BasicStream).b[k]? :=
  endWriteEncaps_touches_only_length littleEndianBuild
    { holding littleEndianBuild 64 [7, 0, 0, 0, 0, 1, 0, 170, 187] 3 with
      currentWriteEncaps := [{ start := 1, writeIndex := 0 }] }
    { start := 1, writeIndex := 0 } [] rfl (by decide)

/-! ## The encodings that `readSize` accepts -/

theorem store_load (bld : Build) (m : IntStorage) : bld.store (bld.load m) = m := by
  obtain ⟨a0, a1, a2, a3⟩ := m
  have h0 := a0.isLt
  have h1 := a1.isLt
  have h2 := a2.isLt
  have h3 := a3.isLt
  unfold Build.store Build.load
  cases bld.hostBigEndian
  · simp only [Bool.false_eq_true, if_false]
    rw [pattern32_ofPattern32 _ (by omega)]
    simp only [toByte, IntStorage.mk.injEq]
    refine ⟨?_, ?_, ?_, ?_⟩ <;> (apply Fin.ext; simp only []; omega)
  · simp only [if_true]
    rw [pattern32_ofPattern32 _ (by omega)]
    simp only [toByte, IntStorage.mk.injEq]
    refine ⟨?_, ?_, ?_, ?_⟩ <;> (apply Fin.ext; simp only []; omega)

theorem copyOut_copyIn (bld : Build) (x0 x1 x2 x3 : Ice.Byte) :
    copyOut bld (copyIn bld x0 x1 x2 x3) = [x0, x1, x2, x3] := by
  unfold copyOut copyIn
  cases bld.ICE_BIG_ENDIAN <;> rfl

theorem copyOut_store_load (bld : Build) (x0 x1 x2 x3 : Ice.Byte) :
    copyOut bld (bld.store (bld.load (copyIn bld x0 x1 x2 x3))) = [x0, x1, x2, x3] := by
  rw [store_load, copyOut_copyIn]

/-- C20 fails as stated.  `readSize` accepts the five bytes `FF 05 00 00 00` as
the size 5, while `writeSize(5)` appends the single byte `05`: the size 5 has two
accepted wire representations. -/
theorem readSize_noncanonical_counterexample :
    readSize littleEndianBuild (holding littleEndianBuild 64 [255, 5, 0, 0, 0] 0) =
      .ok 5 { holding littleEndianBuild 64 [255, 5, 0, 0, 0] 0 with i := 5 } ∧
    readSize littleEndianBuild (holding littleEndianBuild 64 [5] 0) =
      .ok 5 { holding littleEndianBuild 64 [5] 0 with i := 1 } ∧
    writeSize littleEndianBuild 5 (init littleEndianBuild 64) =
      .ok () { init littleEndianBuild 64 with b := [5] } ∧
    ([255, 5, 0, 0, 0] : List Ice.Byte) ≠ [5] :=
  ⟨rfl, rfl, rfl, by decide⟩

/-- C20, amended.  When `readSize` succeeds with the value `v` it has consumed
1 byte or 5 bytes.  If it consumed 1 byte, or if `v > 254`, the bytes consumed
are exactly the bytes that `writeSize(v)` appends (to any stream with room for
them).  If it consumed 5 bytes they are `FF` followed by the four bytes that
`write(Ice::Int)` writes for `v`, also when `v ≤ 254`: `readSize` does not
reject the long form of a small size, so the sizes 0 to 254 have two accepted
representations and the larger ones exactly one. -/
theorem readSize_accepted_forms (bld : Build) (s s1 : BasicStream) (v : Int)
    (h : readSize bld s = .ok v s1) :
    0 ≤ v ∧ v ≤ 2147483647 ∧ (s1.i = s.i + 1 ∨ s1.i = s.i + 5) ∧
    ((s1.i = s.i + 1 ∨ v > 254) →
      ∀ t : BasicStream, t.b.length + 5 ≤ t.messageSizeMax →
        writeSize bld v t = .ok () { t with b := t.b ++ (s.b.drop s.i).take (s1.i - s.i) }) ∧
    (s1.i = s.i + 5 →
      (s.b.drop s.i).take (s1.i - s.i) = 255 :: copyOut bld (bld.store v)) := by
  rcases readSize_ok_inv bld s s1 v h with
    ⟨x, rest, hx, hne, hn, hs⟩ | ⟨x0, x1, x2, x3, rest, hx, hn, hpos, hs⟩
  · have hxlt := x.isLt
    have hi : s1.i = s.i + 1 := by rw [hs]
    have htake : (s.b.drop s.i).take (s1.i - s.i) = [x] := by
      rw [hi, hx]; simp
    refine ⟨by omega, by omega, Or.inl hi, ?_, fun h5 => by omega⟩
    intro _ t _
    rw [htake, writeSize_small bld t v (by omega) (by omega)]
    have hb : toByte (pattern32 v) = x := by
      apply Fin.ext
      simp only [toByte, pattern32]
      omega
    rw [hb]
  · have hi : s1.i = s.i + 5 := by rw [hs]
    have htake : (s.b.drop s.i).take (s1.i - s.i) = [255, x0, x1, x2, x3] := by
      rw [hi, hx]; simp
    have hrange : v ≤ 2147483647 := by
      rw [hn]
      unfold Build.load
      split <;> exact (ofPattern32_range _).2
    have hco : copyOut bld (bld.store v) = [x0, x1, x2, x3] := by
      rw [hn]; exact copyOut_store_load bld x0 x1 x2 x3
    refine ⟨hpos, hrange, Or.inr hi, ?_, fun _ => by rw [htake, hco]⟩
    rintro (h1 | hgt)
    · omega
    · intro t hroom
      rw [htake, writeSize_large bld t v hgt, if_neg (by omega), hco]

/-- Witness for the amended C20: the canonical five bytes of the size 300. -/
theorem readSize_accepted_forms_witness :
    (List.drop (holding littleEndianBuild 64 [255, 44, 1, 0, 0] 0).i
        (holding littleEndianBuild 64 [255, 44, 1, 0, 0] 0).b).take
      (({ holding littleEndianBuild 64 [255, 44, 1, 0, 0] 0 with i := 5 } : BasicStream).i
        - (holding littleEndianBuild 64 [255, 44, 1, 0, 0] 0).i)
      = 255 :: copyOut littleEndianBuild (littleEndianBuild.store 300) :=
  (readSize_accepted_forms littleEndianBuild (holding littleEndianBuild 64 [255, 44, 1, 0, 0] 0)
    { holding littleEndianBuild 64 [255, 44, 1, 0, 0] 0 with i := 5 } 300 (by rfl)).2.2.2.2 rfl

end IceInternal.BasicStream

/-! ## Reads inside an open encapsulation -/

namespace IceInternal.BasicStream

end IceInternal.BasicStream
